import Mathlib

/-!
Verification development for GNU MPC's complex squaring (`src/sqr.c`).

The development shallowly embeds the two functions of the file,
`mpfr_fmma` and `mpc_sqr`, over a model of MPFR arbitrary-precision
floating-point values.  Finite nonzero values are represented by exact
rationals; precisions are natural numbers, exponents are integers, and
the global exponent range `[emin, emax]` is passed explicitly.  The MPFR
primitives consumed by the code (addition, multiplication, scaling,
`mpfr_can_round`, exception behaviour on overflow and underflow) are
modelled from their documented semantics, following §6 of the design
document; the two functions of `sqr.c` themselves are translated line by
line.
-/

set_option maxRecDepth 40000

namespace MpcSqr

/-! ### Binary length of a natural number -/

/-- Fuel-driven helper for `bits`; the fuel only has to dominate the
number itself for the answer to be exact. -/
def bitsAux : ℕ → ℕ → ℕ
  | 0, _ => 0
  | f+1, n => if n = 0 then 0 else bitsAux f (n / 2) + 1

/-- Number of binary digits of `n`: `bits 0 = 0` and
`2 ^ (bits n - 1) ≤ n < 2 ^ bits n` for positive `n`. -/
def bits (n : ℕ) : ℕ := bitsAux n n

theorem bitsAux_congr : ∀ (f g n : ℕ), n ≤ f → n ≤ g → bitsAux f n = bitsAux g n := by
  intro f
  induction f with
  | zero =>
      intro g n hf _
      interval_cases n
      cases g <;> simp [bitsAux]
  | succ f ih =>
      intro g n hf hg
      cases g with
      | zero =>
          interval_cases n
          simp [bitsAux]
      | succ g =>
          by_cases hn : n = 0
          · simp [bitsAux, hn]
          · have hlt : n / 2 < n := Nat.div_lt_self (Nat.pos_of_ne_zero hn) one_lt_two
            have h1 : n / 2 ≤ f := by omega
            have h2 : n / 2 ≤ g := by omega
            simp only [bitsAux, hn, if_false]
            rw [ih g (n / 2) h1 h2]

theorem bits_of_ne_zero {n : ℕ} (hn : n ≠ 0) : bits n = bits (n / 2) + 1 := by
  obtain ⟨m, rfl⟩ := Nat.exists_eq_succ_of_ne_zero hn
  show bitsAux (m + 1) (m + 1) = _
  rw [bitsAux]
  simp only [Nat.succ_ne_zero, if_false]
  show bitsAux m ((m+1)/2) + 1 = bitsAux ((m+1)/2) ((m+1)/2) + 1
  exact congrArg (fun t => t + 1) (bitsAux_congr m ((m+1)/2) ((m+1)/2) (by omega) le_rfl)

theorem bits_zero : bits 0 = 0 := rfl

theorem bits_spec : ∀ n : ℕ, n ≠ 0 → 2 ^ (bits n - 1) ≤ n ∧ n < 2 ^ bits n := by
  intro n
  induction n using Nat.strong_induction_on with
  | _ n ih =>
      intro hn
      rcases Nat.lt_or_ge n 2 with h2 | h2
      · interval_cases n
        · simp at hn
        · exact ⟨by decide, by decide⟩
      · have hhalf : n / 2 ≠ 0 := by omega
        have hlt : n / 2 < n := Nat.div_lt_self (by omega) one_lt_two
        obtain ⟨hlo, hhi⟩ := ih (n / 2) hlt hhalf
        have hb : bits n = bits (n / 2) + 1 := bits_of_ne_zero (by omega)
        have hbpos : 1 ≤ bits (n / 2) := by
          by_contra hc
          have : bits (n / 2) = 0 := by omega
          rw [this] at hhi
          omega
        constructor
        · have : 2 ^ (bits (n / 2) - 1) * 2 ≤ (n / 2) * 2 := by omega
          calc 2 ^ (bits n - 1) = 2 ^ (bits (n / 2) - 1) * 2 := by
                rw [hb]
                rw [← pow_succ]
                congr 1
                omega
            _ ≤ (n / 2) * 2 := this
            _ ≤ n := by omega
        · calc n ≤ (n / 2) * 2 + 1 := by omega
            _ < 2 ^ bits (n / 2) * 2 := by omega
            _ = 2 ^ bits n := by rw [hb, pow_succ]

/-! ### Powers of two and rational helpers -/

/-- `2 ^ e` as a rational, written so that the kernel can evaluate it. -/
def pow2 (e : ℤ) : ℚ :=
  if 0 ≤ e then Rat.divInt (2 ^ e.toNat) 1 else Rat.divInt 1 (2 ^ (-e).toNat)

/-- Embed an integer into `ℚ` without going through `Int.cast`. -/
def mkQ (n : ℤ) : ℚ := Rat.divInt n 1

theorem mkQ_eq (n : ℤ) : mkQ n = (n : ℚ) := Rat.divInt_one n

theorem pow2_eq (e : ℤ) : pow2 e = (2 : ℚ) ^ e := by
  unfold pow2
  rcases le_or_lt 0 e with h | h
  · rw [if_pos h, Rat.divInt_one]
    push_cast
    rw [← zpow_natCast]
    congr 1
    omega
  · rw [if_neg (not_le.mpr h)]
    have h1 : Rat.divInt 1 (2 ^ (-e).toNat) = 1 / ((2 : ℚ) ^ (-e).toNat) := by
      rw [Rat.divInt_eq_div]
      push_cast
      ring
    rw [h1, one_div, ← zpow_natCast, ← zpow_neg]
    congr 1
    omega

theorem pow2_pos (e : ℤ) : 0 < pow2 e := by
  rw [pow2_eq]
  positivity

theorem pow2_ne_zero (e : ℤ) : pow2 e ≠ 0 := ne_of_gt (pow2_pos e)

theorem pow2_add (a b : ℤ) : pow2 (a + b) = pow2 a * pow2 b := by
  rw [pow2_eq, pow2_eq, pow2_eq, zpow_add₀ (two_ne_zero)]

theorem pow2_lt_pow2 {a b : ℤ} (h : a < b) : pow2 a < pow2 b := by
  rw [pow2_eq, pow2_eq]
  exact zpow_lt_zpow_right₀ one_lt_two h

theorem pow2_le_pow2 {a b : ℤ} (h : a ≤ b) : pow2 a ≤ pow2 b := by
  rw [pow2_eq, pow2_eq]
  exact zpow_le_zpow_right₀ one_le_two h

/-- Absolute value on `ℚ`, kept as an explicit definition so that the
kernel evaluates it. -/
def qabs (q : ℚ) : ℚ := if q < 0 then -q else q

theorem qabs_eq_abs (q : ℚ) : qabs q = |q| := by
  unfold qabs
  rcases lt_or_ge q 0 with h | h
  · rw [if_pos h, abs_of_neg h]
  · rw [if_neg (not_lt.mpr h), abs_of_nonneg h]

/-! ### The binary exponent of a nonzero rational

For `q ≠ 0`, `qexp q` is the unique `e` with `2^(e-1) ≤ |q| < 2^e`,
matching MPFR's convention where a finite nonzero value is
`±m · 2^exp` with `1/2 ≤ m < 1`. -/

def qexp (q : ℚ) : ℤ :=
  let d : ℤ := (bits q.num.natAbs : ℤ) - (bits q.den : ℤ)
  if pow2 d ≤ qabs q then d + 1 else d

theorem qabs_pos {q : ℚ} (hq : q ≠ 0) : 0 < qabs q := by
  rw [qabs_eq_abs]
  exact abs_pos.mpr hq

theorem qabs_of_pos {q : ℚ} (hq : 0 < q) : qabs q = q := by
  rw [qabs_eq_abs, abs_of_pos hq]

theorem qabs_neg (q : ℚ) : qabs (-q) = qabs q := by
  rw [qabs_eq_abs, qabs_eq_abs, abs_neg]

theorem pow2_natCast (k : ℕ) : pow2 (k : ℤ) = ((2 ^ k : ℕ) : ℚ) := by
  rw [pow2_eq]
  push_cast
  rw [zpow_natCast]

theorem qabs_num_den (q : ℚ) : qabs q = (q.num.natAbs : ℚ) / (q.den : ℚ) := by
  rw [qabs_eq_abs]
  conv_lhs => rw [← Rat.num_div_den q]
  rw [abs_div]
  congr 1
  · rw [Int.cast_natAbs, Int.cast_abs]
  · rw [abs_of_pos]
    exact_mod_cast q.pos

theorem qexp_spec {q : ℚ} (hq : q ≠ 0) :
    pow2 (qexp q - 1) ≤ qabs q ∧ qabs q < pow2 (qexp q) := by
  have hnum : q.num ≠ 0 := Rat.num_ne_zero.mpr hq
  have ha : q.num.natAbs ≠ 0 := Int.natAbs_ne_zero.mpr hnum
  have hb : q.den ≠ 0 := q.den_nz
  obtain ⟨halo, hahi⟩ := bits_spec q.num.natAbs ha
  obtain ⟨hblo, hbhi⟩ := bits_spec q.den hb
  set a : ℕ := q.num.natAbs with hadef
  set b : ℕ := q.den with hbdef
  set ba : ℕ := bits a with hbadef
  set bb : ℕ := bits b with hbbdef
  have hbpos : (0 : ℚ) < (b : ℚ) := by exact_mod_cast Nat.pos_of_ne_zero hb
  have habs : qabs q = (a : ℚ) / (b : ℚ) := qabs_num_den q
  have hupper : qabs q < pow2 ((ba : ℤ) - (bb : ℤ) + 1) := by
    rw [habs, div_lt_iff hbpos]
    have h1 : (a : ℚ) < ((2 ^ ba : ℕ) : ℚ) := by exact_mod_cast hahi
    have h2 : ((2 ^ ba : ℕ) : ℚ) ≤ pow2 ((ba : ℤ) - (bb : ℤ) + 1) * (b : ℚ) := by
      have h3 : ((2 ^ (bb - 1) : ℕ) : ℚ) ≤ (b : ℚ) := by exact_mod_cast hblo
      have h4 : pow2 ((ba : ℤ) - (bb : ℤ) + 1) * ((2 ^ (bb - 1) : ℕ) : ℚ) ≤
          pow2 ((ba : ℤ) - (bb : ℤ) + 1) * (b : ℚ) := by
        apply mul_le_mul_of_nonneg_left h3 (le_of_lt (pow2_pos _))
      refine le_trans (le_of_eq ?_) h4
      have hbb1 : 1 ≤ bb := by
        by_contra hc
        have : bb = 0 := by omega
        rw [this] at hbhi
        omega
      have e1 : ((2 ^ (bb - 1) : ℕ) : ℚ) = pow2 ((bb : ℤ) - 1) := by
        rw [← pow2_natCast]
        congr 1
        omega
      rw [e1, ← pow2_natCast, ← pow2_add]
      congr 1
      omega
    exact lt_of_lt_of_le h1 h2
  have hlower : pow2 ((ba : ℤ) - (bb : ℤ) - 1) < qabs q := by
    rw [habs, lt_div_iff hbpos]
    have h1 : ((2 ^ (ba - 1) : ℕ) : ℚ) ≤ (a : ℚ) := by exact_mod_cast halo
    have h2 : pow2 ((ba : ℤ) - (bb : ℤ) - 1) * (b : ℚ) < ((2 ^ (ba - 1) : ℕ) : ℚ) := by
      have h3 : (b : ℚ) < ((2 ^ bb : ℕ) : ℚ) := by exact_mod_cast hbhi
      have h4 : pow2 ((ba : ℤ) - (bb : ℤ) - 1) * (b : ℚ) <
          pow2 ((ba : ℤ) - (bb : ℤ) - 1) * ((2 ^ bb : ℕ) : ℚ) := by
        apply mul_lt_mul_of_pos_left h3 (pow2_pos _)
      refine lt_of_lt_of_le h4 (le_of_eq ?_)
      have hba1 : 1 ≤ ba := by
        by_contra hc
        have : ba = 0 := by omega
        rw [this] at hahi
        omega
      have e1 : ((2 ^ (ba - 1) : ℕ) : ℚ) = pow2 ((ba : ℤ) - 1) := by
        rw [← pow2_natCast]
        congr 1
        omega
      rw [e1, ← pow2_natCast, ← pow2_add]
      congr 1
      omega
    exact lt_of_lt_of_le h2 h1
  unfold qexp
  by_cases hcase : pow2 ((bits q.num.natAbs : ℤ) - (bits q.den : ℤ)) ≤ qabs q
  · rw [if_pos hcase]
    constructor
    · have : (ba : ℤ) - (bb : ℤ) + 1 - 1 = (ba : ℤ) - (bb : ℤ) := by ring
      rw [this]
      exact hcase
    · exact hupper
  · rw [if_neg hcase]
    constructor
    · have : (ba : ℤ) - (bb : ℤ) - 1 = (ba : ℤ) - (bb : ℤ) - 1 := rfl
      exact le_of_lt hlower
    · exact not_le.mp hcase

theorem qexp_eq_of {q : ℚ} {e : ℤ} (hq : q ≠ 0)
    (h1 : pow2 (e - 1) ≤ qabs q) (h2 : qabs q < pow2 e) : qexp q = e := by
  obtain ⟨hlo, hhi⟩ := qexp_spec hq
  by_contra hne
  rcases lt_or_gt_of_ne hne with h | h
  · have : pow2 (qexp q) ≤ pow2 (e - 1) := pow2_le_pow2 (by omega)
    have := lt_of_lt_of_le hhi this
    exact absurd h1 (not_le.mpr this)
  · have : pow2 e ≤ pow2 (qexp q - 1) := pow2_le_pow2 (by omega)
    have := lt_of_lt_of_le h2 this
    exact absurd hlo (not_le.mpr this)

theorem qexp_pow2 (e : ℤ) : qexp (pow2 e) = e + 1 := by
  apply qexp_eq_of (pow2_ne_zero e)
  · rw [qabs_of_pos (pow2_pos e)]
    exact pow2_le_pow2 (by omega)
  · rw [qabs_of_pos (pow2_pos e)]
    exact pow2_lt_pow2 (by omega)

theorem qexp_neg (q : ℚ) (hq : q ≠ 0) : qexp (-q) = qexp q := by
  apply qexp_eq_of (neg_ne_zero.mpr hq)
  · rw [qabs_neg]
    exact (qexp_spec hq).1
  · rw [qabs_neg]
    exact (qexp_spec hq).2

theorem qexp_mkQ_mul_pow2 {m : ℤ} (k : ℤ) (hm : m ≠ 0) :
    qexp (mkQ m * pow2 k) = (bits m.natAbs : ℤ) + k := by
  have hma : m.natAbs ≠ 0 := Int.natAbs_ne_zero.mpr hm
  obtain ⟨hlo, hhi⟩ := bits_spec m.natAbs hma
  have hb1 : 1 ≤ bits m.natAbs := by
    by_contra hc
    have h0 : bits m.natAbs = 0 := by omega
    rw [h0] at hhi
    simp at hhi
    exact hma (by omega)
  have hne : mkQ m * pow2 k ≠ 0 := by
    apply mul_ne_zero _ (pow2_ne_zero k)
    rw [mkQ_eq]
    exact_mod_cast hm
  apply qexp_eq_of hne
  · rw [qabs_eq_abs, abs_mul, abs_of_pos (pow2_pos k), mkQ_eq, ← Int.cast_abs,
      ← Int.cast_natAbs]
    have h1 : pow2 ((bits m.natAbs : ℤ) - 1) ≤ (m.natAbs : ℚ) := by
      calc pow2 ((bits m.natAbs : ℤ) - 1) = ((2 ^ (bits m.natAbs - 1) : ℕ) : ℚ) := by
            rw [← pow2_natCast]
            congr 1
            omega
        _ ≤ (m.natAbs : ℚ) := by exact_mod_cast hlo
    calc pow2 ((bits m.natAbs : ℤ) + k - 1) = pow2 ((bits m.natAbs : ℤ) - 1) * pow2 k := by
          rw [← pow2_add]
          congr 1
          ring
      _ ≤ (m.natAbs : ℚ) * pow2 k := by
          apply mul_le_mul_of_nonneg_right h1 (le_of_lt (pow2_pos k))
  · rw [qabs_eq_abs, abs_mul, abs_of_pos (pow2_pos k), mkQ_eq, ← Int.cast_abs,
      ← Int.cast_natAbs]
    have h1 : (m.natAbs : ℚ) < pow2 (bits m.natAbs : ℤ) := by
      rw [pow2_natCast]
      exact_mod_cast hhi
    calc (m.natAbs : ℚ) * pow2 k < pow2 (bits m.natAbs : ℤ) * pow2 k := by
          apply mul_lt_mul_of_pos_right h1 (pow2_pos k)
      _ = pow2 ((bits m.natAbs : ℤ) + k) := (pow2_add _ _).symm

theorem bits_le_of_lt {n : ℕ} {p : ℕ} (h : n < 2 ^ p) : bits n ≤ p := by
  by_cases hn : n = 0
  · rw [hn, bits_zero]
    omega
  · obtain ⟨hlo, _⟩ := bits_spec n hn
    have h2 : 2 ^ (bits n - 1) < 2 ^ p := lt_of_le_of_lt hlo h
    have := (Nat.pow_lt_pow_iff_right one_lt_two).mp h2
    omega

/-! ### Rounding modes and correct rounding at a precision

The five MPFR rounding directions: to nearest with ties to even,
toward zero, toward plus infinity, toward minus infinity, away from
zero. -/

inductive Rnd where
  | N
  | Z
  | U
  | D
  | A
deriving DecidableEq, Repr

/-- Round a rational to an integer in the given direction
(ties to even for `N`). -/
def rndInt : Rnd → ℚ → ℤ
  | .D, q => ⌊q⌋
  | .U, q => ⌈q⌉
  | .Z, q => if 0 ≤ q then ⌊q⌋ else ⌈q⌉
  | .A, q => if 0 ≤ q then ⌈q⌉ else ⌊q⌋
  | .N, q =>
      if q - ⌊q⌋ < 1/2 then ⌊q⌋
      else if 1/2 < q - ⌊q⌋ then ⌊q⌋ + 1
      else if ⌊q⌋ % 2 = 0 then ⌊q⌋ else ⌊q⌋ + 1

/-- Correct rounding of a rational to `p` significant bits in direction
`rnd`, with unbounded exponent range: the unique representable value
with `p`-bit mantissa selected by the direction. -/
def roundQ (rnd : Rnd) (p : ℕ) (q : ℚ) : ℚ :=
  if q = 0 then 0
  else
    let s : ℤ := (p : ℤ) - qexp q
    mkQ (rndInt rnd (q * pow2 s)) * pow2 (-s)

theorem roundQ_zero (rnd : Rnd) (p : ℕ) : roundQ rnd p 0 = 0 := by
  unfold roundQ
  rw [if_pos rfl]

theorem rndInt_intCast (rnd : Rnd) (n : ℤ) : rndInt rnd ((n : ℚ)) = n := by
  cases rnd <;> simp [rndInt]

theorem roundQ_dyadic (rnd : Rnd) (p : ℕ) (m k : ℤ) (hm : m.natAbs < 2 ^ p) :
    roundQ rnd p (mkQ m * pow2 k) = mkQ m * pow2 k := by
  by_cases hm0 : m = 0
  · rw [hm0]
    have : mkQ 0 * pow2 k = 0 := by
      rw [mkQ_eq]
      push_cast
      ring
    rw [this, roundQ_zero]
  · have hexp := qexp_mkQ_mul_pow2 k hm0
    have hq0 : mkQ m * pow2 k ≠ 0 := by
      apply mul_ne_zero _ (pow2_ne_zero k)
      rw [mkQ_eq]
      exact_mod_cast hm0
    have hble : bits m.natAbs ≤ p := bits_le_of_lt hm
    unfold roundQ
    rw [if_neg hq0, hexp]
    set j : ℕ := p - bits m.natAbs with hj
    have hsj : (p : ℤ) - ((bits m.natAbs : ℤ) + k) = (j : ℤ) - k := by omega
    rw [hsj]
    show mkQ (rndInt rnd ((mkQ m * pow2 k) * pow2 ((j : ℤ) - k))) * pow2 (-((j : ℤ) - k)) =
      mkQ m * pow2 k
    have hscale : (mkQ m * pow2 k) * pow2 ((j : ℤ) - k) = ((m * 2 ^ j : ℤ) : ℚ) := by
      rw [mkQ_eq, pow2_eq, pow2_eq]
      push_cast
      rw [mul_assoc, ← zpow_add₀ (two_ne_zero' ℚ)]
      have : k + ((j : ℤ) - k) = (j : ℤ) := by ring
      rw [this, zpow_natCast]
    rw [hscale, rndInt_intCast]
    rw [mkQ_eq, mkQ_eq, pow2_eq, pow2_eq]
    push_cast
    rw [mul_assoc, ← zpow_natCast (2:ℚ) j, ← zpow_add₀ (two_ne_zero' ℚ)]
    have hfinal : (j : ℤ) + -((j : ℤ) - k) = k := by ring
    rw [hfinal]

theorem rndInt_between (rnd : Rnd) (x : ℚ) :
    ⌊x⌋ ≤ rndInt rnd x ∧ rndInt rnd x ≤ ⌈x⌉ := by
  have hfc : ⌊x⌋ ≤ ⌈x⌉ := Int.floor_le_ceil x
  cases rnd
  case D => exact ⟨le_rfl, hfc⟩
  case U => exact ⟨hfc, le_rfl⟩
  case Z =>
    simp only [rndInt]
    split
    · exact ⟨le_rfl, hfc⟩
    · exact ⟨hfc, le_rfl⟩
  case A =>
    simp only [rndInt]
    split
    · exact ⟨hfc, le_rfl⟩
    · exact ⟨le_rfl, hfc⟩
  case N =>
    simp only [rndInt]
    split
    · exact ⟨le_rfl, hfc⟩
    · rename_i h1
      have hlt : (⌊x⌋ : ℚ) < x := by
        have h2 : (1 : ℚ)/2 ≤ x - ⌊x⌋ := not_lt.mp h1
        linarith
      have hcgt : ⌊x⌋ < ⌈x⌉ := Int.lt_ceil.mpr hlt
      split
      · exact ⟨by omega, by omega⟩
      · split
        · exact ⟨by omega, by omega⟩
        · exact ⟨by omega, by omega⟩

theorem rndInt_A_ne_zero {q : ℚ} (hq : q ≠ 0) : rndInt .A q ≠ 0 := by
  simp only [rndInt]
  rcases lt_or_gt_of_ne hq with h | h
  · rw [if_neg (not_le.mpr h)]
    have : ⌊q⌋ < 0 := Int.floor_lt.mpr (by simpa using h)
    omega
  · rw [if_pos (le_of_lt h)]
    have : 0 < ⌈q⌉ := Int.ceil_pos.mpr h
    omega

theorem roundQ_A_ne_zero (p : ℕ) {q : ℚ} (hq : q ≠ 0) : roundQ .A p q ≠ 0 := by
  unfold roundQ
  rw [if_neg hq]
  apply mul_ne_zero _ (pow2_ne_zero _)
  rw [mkQ_eq]
  have := rndInt_A_ne_zero (q := q * pow2 ((p : ℤ) - qexp q))
    (mul_ne_zero hq (pow2_ne_zero _))
  exact_mod_cast this

theorem roundQ_ne_zero (rnd : Rnd) (p : ℕ) {q : ℚ} (hq : q ≠ 0) (hp : 1 ≤ p) :
    roundQ rnd p q ≠ 0 := by
  unfold roundQ
  rw [if_neg hq]
  apply mul_ne_zero _ (pow2_ne_zero _)
  rw [mkQ_eq]
  set x : ℚ := q * pow2 ((p : ℤ) - qexp q) with hx
  have hxlo : pow2 ((p : ℤ) - 1) ≤ qabs x := by
    obtain ⟨hlo, _⟩ := qexp_spec hq
    rw [hx, qabs_eq_abs, abs_mul, abs_of_pos (pow2_pos _), ← qabs_eq_abs]
    calc pow2 ((p : ℤ) - 1) = pow2 (qexp q - 1) * pow2 ((p : ℤ) - qexp q) := by
          rw [← pow2_add]
          congr 1
          ring
      _ ≤ qabs q * pow2 ((p : ℤ) - qexp q) :=
          mul_le_mul_of_nonneg_right hlo (le_of_lt (pow2_pos _))
  have h1le : (1 : ℚ) ≤ qabs x := by
    refine le_trans ?_ hxlo
    calc (1 : ℚ) = pow2 0 := by norm_num [pow2]
      _ ≤ pow2 ((p : ℤ) - 1) := pow2_le_pow2 (by omega)
  obtain ⟨hbf, hbc⟩ := rndInt_between rnd x
  intro hz
  have hz0 : rndInt rnd x = 0 := by exact_mod_cast hz
  rcases lt_or_ge x 0 with h | h
  · have hle : x ≤ -1 := by
      have he : qabs x = -x := by
        unfold qabs
        rw [if_pos h]
      rw [he] at h1le
      linarith
    have hcle : ⌈x⌉ ≤ -1 :=
      Int.ceil_le.mpr (show x ≤ ((-1 : ℤ) : ℚ) by exact_mod_cast hle)
    omega
  · have hxpos : (1 : ℚ) ≤ x := by
      have he : qabs x = x := by
        unfold qabs
        rw [if_neg (not_lt.mpr h)]
      rw [he] at h1le
      exact h1le
    have hfge : 1 ≤ ⌊x⌋ :=
      Int.le_floor.mpr (show ((1 : ℤ) : ℚ) ≤ x by exact_mod_cast hxpos)
    omega

/-! ### MPFR values

A value is NaN, a signed infinity, a signed zero, or a finite nonzero
rational (`Bool` sign fields: `true` means the sign bit is set, i.e.
negative).  Exceptional behaviour (overflow, underflow, special
operands) follows the documented MPFR semantics, cf. §6 of the design
document. -/

inductive MpfrVal where
  | nan : MpfrVal
  | inf : Bool → MpfrVal
  | zero : Bool → MpfrVal
  | fin : ℚ → MpfrVal
deriving DecidableEq, Repr

def MpfrVal.isNan : MpfrVal → Bool
  | .nan => true
  | _ => false

def MpfrVal.isInf : MpfrVal → Bool
  | .inf _ => true
  | _ => false

def MpfrVal.isZero : MpfrVal → Bool
  | .zero _ => true
  | .fin q => decide (q = 0)
  | _ => false

/-- `mpfr_number_p`: neither NaN nor infinite. -/
def MpfrVal.isNumber : MpfrVal → Bool
  | .nan => false
  | .inf _ => false
  | _ => true

def MpfrVal.signbit : MpfrVal → Bool
  | .nan => false
  | .inf s => s
  | .zero s => s
  | .fin q => decide (q < 0)

/-- `MPFR_SIGN`: `±1` according to the sign bit. -/
def msign (v : MpfrVal) : ℤ := if v.signbit then -1 else 1

/-- `mpfr_sgn`: `0` on NaN and zeros, `±1` otherwise. -/
def sgnv : MpfrVal → ℤ
  | .nan => 0
  | .inf s => if s then -1 else 1
  | .zero _ => 0
  | .fin q => q.num.sign

/-- Numeric value of a finite `MpfrVal` (`0` for specials). -/
def valQ : MpfrVal → ℚ
  | .fin q => q
  | _ => 0

def negv : MpfrVal → MpfrVal
  | .nan => .nan
  | .inf s => .inf (!s)
  | .zero s => .zero (!s)
  | .fin q => .fin (-q)

/-- MPFR's exponent field for a zero (`__MPFR_EXP_ZERO`), far below any
legal `emin`. -/
def expZERO : ℤ := -(2 ^ 63) + 1

/-- MPFR's exponent field for a NaN. -/
def expNAN : ℤ := -(2 ^ 63) + 2

/-- MPFR's exponent field for an infinity. -/
def expINF : ℤ := -(2 ^ 63) + 3

/-- `mpfr_get_exp`, extended to non-regular values by the sentinel
exponent fields MPFR stores for them. -/
def expOf : MpfrVal → ℤ
  | .nan => expNAN
  | .inf _ => expINF
  | .zero _ => expZERO
  | .fin q => qexp q

def qsign (q : ℚ) : ℤ := q.num.sign

/-- Largest representable magnitude at precision `p`. -/
def maxval (p : ℕ) (emax : ℤ) : ℚ := (1 - pow2 (-(p : ℤ))) * pow2 emax

/-- Smallest representable positive magnitude. -/
def minmag (emin : ℤ) : ℚ := pow2 (emin - 1)

/-- Result delivered by MPFR on overflow: `±∞` for the directions that
round away from the extremal magnitude, `±maxval` for those that round
toward it. -/
def ovfVal (rnd : Rnd) (p : ℕ) (emax : ℤ) (neg : Bool) : MpfrVal :=
  match rnd with
  | .N => .inf neg
  | .A => .inf neg
  | .Z => .fin (if neg then -(maxval p emax) else maxval p emax)
  | .U => if neg then .fin (-(maxval p emax)) else .inf false
  | .D => if neg then .inf true else .fin (maxval p emax)

/-- Ternary inexact flag accompanying an overflowed result. -/
def ovfInex (rnd : Rnd) (neg : Bool) : ℤ :=
  match rnd with
  | .N => if neg then -1 else 1
  | .A => if neg then -1 else 1
  | .Z => if neg then 1 else -1
  | .U => 1
  | .D => -1

/-- Value delivered by MPFR on underflow (underflow after rounding):
zero or the minimal magnitude, by direction; to nearest, the value
closer to the exact one, ties falling to zero. -/
def uflVal (rnd : Rnd) (emin : ℤ) (x : ℚ) : ℚ :=
  match rnd with
  | .Z => 0
  | .A => if x < 0 then -(minmag emin) else minmag emin
  | .U => if x < 0 then 0 else minmag emin
  | .D => if x < 0 then -(minmag emin) else 0
  | .N => if qabs x ≤ pow2 (emin - 2) then 0
          else if x < 0 then -(minmag emin) else minmag emin

/-- The result record of an MPFR operation: computed value, ternary
inexact flag, and whether this operation raised the underflow flag. -/
structure RetF where
  val : MpfrVal
  inex : ℤ
  undf : Bool
deriving DecidableEq, Repr

/-- Round an exact rational into the format `(p, emin, emax)` in
direction `rnd`, with MPFR's overflow and underflow behaviour ("after
rounding" semantics: the range check is applied to the value rounded at
precision `p` with unbounded exponent range).  `zs` is the sign bit to
give an exact zero result. -/
def roundB (rnd : Rnd) (p : ℕ) (emin emax : ℤ) (x : ℚ) (zs : Bool) : RetF :=
  if x = 0 then ⟨.zero zs, 0, false⟩
  else if emax < qexp (roundQ rnd p x) then
    ⟨ovfVal rnd p emax (decide (x < 0)), ovfInex rnd (decide (x < 0)), false⟩
  else if qexp (roundQ rnd p x) < emin then
    ⟨if uflVal rnd emin x = 0 then .zero (decide (x < 0)) else .fin (uflVal rnd emin x),
      qsign (uflVal rnd emin x - x), true⟩
  else ⟨.fin (roundQ rnd p x), qsign (roundQ rnd p x - x), false⟩

/-! ### MPFR arithmetic on `MpfrVal` -/

def mpfr_add (p : ℕ) (rnd : Rnd) (emin emax : ℤ) (a b : MpfrVal) : RetF :=
  match a, b with
  | .nan, _ => ⟨.nan, 0, false⟩
  | _, .nan => ⟨.nan, 0, false⟩
  | .inf sa, .inf sb => if sa = sb then ⟨.inf sa, 0, false⟩ else ⟨.nan, 0, false⟩
  | .inf sa, _ => ⟨.inf sa, 0, false⟩
  | _, .inf sb => ⟨.inf sb, 0, false⟩
  | .zero sa, .zero sb =>
      ⟨.zero (if sa = sb then sa else decide (rnd = .D)), 0, false⟩
  | .zero _, .fin qb => roundB rnd p emin emax qb (decide (rnd = .D))
  | .fin qa, .zero _ => roundB rnd p emin emax qa (decide (rnd = .D))
  | .fin qa, .fin qb => roundB rnd p emin emax (qa + qb) (decide (rnd = .D))

def mpfr_sub (p : ℕ) (rnd : Rnd) (emin emax : ℤ) (a b : MpfrVal) : RetF :=
  mpfr_add p rnd emin emax a (negv b)

def mpfr_mul (p : ℕ) (rnd : Rnd) (emin emax : ℤ) (a b : MpfrVal) : RetF :=
  match a, b with
  | .nan, _ => ⟨.nan, 0, false⟩
  | _, .nan => ⟨.nan, 0, false⟩
  | .inf _, .zero _ => ⟨.nan, 0, false⟩
  | .zero _, .inf _ => ⟨.nan, 0, false⟩
  | .inf sa, .inf sb => ⟨.inf (xor sa sb), 0, false⟩
  | .inf sa, .fin qb => ⟨.inf (xor sa (decide (qb < 0))), 0, false⟩
  | .fin qa, .inf sb => ⟨.inf (xor (decide (qa < 0)) sb), 0, false⟩
  | .zero sa, .zero sb => ⟨.zero (xor sa sb), 0, false⟩
  | .zero sa, .fin qb => ⟨.zero (xor sa (decide (qb < 0))), 0, false⟩
  | .fin qa, .zero sb => ⟨.zero (xor (decide (qa < 0)) sb), 0, false⟩
  | .fin qa, .fin qb =>
      roundB rnd p emin emax (qa * qb) (xor (decide (qa < 0)) (decide (qb < 0)))

def mpfr_sqr (p : ℕ) (rnd : Rnd) (emin emax : ℤ) (a : MpfrVal) : RetF :=
  mpfr_mul p rnd emin emax a a

/-- `mpfr_set`: rounding conversion to precision `p`. -/
def mpfr_set (p : ℕ) (rnd : Rnd) (emin emax : ℤ) (v : MpfrVal) : RetF :=
  match v with
  | .fin q => roundB rnd p emin emax q (decide (q < 0))
  | w => ⟨w, 0, false⟩

/-- `mpfr_mul_2ui`: exact scaling by `2^k` except for the range check. -/
def mpfr_mul_2ui (p : ℕ) (rnd : Rnd) (emin emax : ℤ) (v : MpfrVal) (k : ℕ) : RetF :=
  match v with
  | .fin q => roundB rnd p emin emax (q * pow2 (k : ℤ)) (decide (q < 0))
  | w => ⟨w, 0, false⟩

/-- `mpfr_div_2ui`: exact scaling by `2^-k` except for the range check. -/
def mpfr_div_2ui (p : ℕ) (rnd : Rnd) (emin emax : ℤ) (v : MpfrVal) (k : ℕ) : RetF :=
  match v with
  | .fin q => roundB rnd p emin emax (q * pow2 (-(k : ℤ))) (decide (q < 0))
  | w => ⟨w, 0, false⟩

/-- `mpfr_can_round (b, err, rnd1, rnd2, n)`, from its documented
contract: `b` approximates an unknown `x` in direction `rnd1` with
`|b - x| ≤ 2^(E(b) - err)`; the answer is whether every such `x` rounds
to the same `n`-bit value in direction `rnd2`.  Since rounding is
monotone it suffices to compare the two endpoints of the interval.
Returns `false` on non-regular `b` as MPFR does. -/
def mpfr_can_round (b : MpfrVal) (err : ℤ) (rnd1 rnd2 : Rnd) (n : ℕ) : Bool :=
  match b with
  | .fin q =>
      let eps := pow2 (qexp q - err)
      let lo := if rnd1 = .U then q - eps else q
      let hi := if rnd1 = .U then q else q + eps
      decide (roundQ rnd2 n lo = roundQ rnd2 n hi)
  | _ => false

/-! ### C integer-conversion helpers

`sqr.c` mixes `mpz_*_ui`/`_si` calls and implicit conversions between
`long` and `unsigned long`; these helpers reproduce the C conversion
semantics exactly (two's complement, 64-bit). -/

/-- Conversion of a signed value to `unsigned long` (reduction mod `2^64`). -/
def toULong (e : ℤ) : ℤ := e % (2 ^ 64)

/-- `mpz_get_ui`: least significant 64 bits of the absolute value. -/
def mpzGetUi (z : ℤ) : ℕ := z.natAbs % 2 ^ 64

/-- Conversion of an `unsigned long` value to signed `long`. -/
def ulongToLong (n : ℕ) : ℤ :=
  let m : ℤ := ((n % 2 ^ 64 : ℕ) : ℤ)
  if m < 2 ^ 63 then m else m - 2 ^ 64

/-- `mpz_get_si`: the value if it fits in a signed long, otherwise the
least significant bits with the sign of the operand. -/
def mpzGetSi (z : ℤ) : ℤ :=
  if -(2 ^ 63) ≤ z ∧ z < 2 ^ 63 then z else z.sign * ((z.natAbs % 2 ^ 63 : ℕ) : ℤ)

/-- `mpfr_set_exp`: replace the exponent by `e` when the value is
regular and `e` lies in the current exponent range; otherwise the value
is unchanged. -/
def mpfr_set_exp (emin emax : ℤ) (v : MpfrVal) (e : ℤ) : MpfrVal :=
  match v with
  | .fin q => if emin ≤ e ∧ e ≤ emax then .fin (q * pow2 (e - qexp q)) else .fin q
  | w => w

/-! ### `mpfr_fmma` (sqr.c lines 31-169)

Computes `z = a*b + c*d` (`sign ≥ 0`) or `z = a*b - c*d` (`sign < 0`),
correctly rounded, assuming `a, b, c, d` finite and nonzero.  The two
products are first formed exactly at precision `prec a + prec b` resp.
`prec c + prec d`; if one of them overflows or underflows, the
computation is redone with the operands normalised to exponent 0 and
the removed exponents tracked in unbounded integers, then the sum is
rescaled, cf. the comments in the source. -/

def mpfr_fmma (pz pa pb pc pd : ℕ) (a b c d : ℚ) (sign : ℤ) (rnd : Rnd)
    (emin emax : ℤ) : MpfrVal × ℤ :=
  let u0 := mpfr_mul (pa + pb) .N emin emax (.fin a) (.fin b)
  let v0' := mpfr_mul (pc + pd) .N emin emax (.fin c) (.fin d)
  let v0 := if sign < 0 then negv v0'.val else v0'.val
  let z0 := mpfr_add pz rnd emin emax u0.val v0
  if z0.val.isInf then
    -- lines 56-60: replace by "correctly rounded overflow"
    let r := mpfr_mul_2ui pz rnd emin emax
      (.fin (if z0.val.signbit then -1 else 1)) (toULong emax).toNat
    (r.val, r.inex)
  else if u0.val.isInf ∨ v0.isInf ∨ u0.val.isZero ∨ v0.isZero then
    -- lines 61-163: redo the computation with mpz_t exponents
    let ea := qexp a
    let eb := qexp b
    let ec := qexp c
    let ed := qexp d
    let a1 := mpfr_set_exp emin emax (.fin a) 0
    let b1 := mpfr_set_exp emin emax (.fin b) 0
    let c1 := mpfr_set_exp emin emax (.fin c) 0
    let d1 := mpfr_set_exp emin emax (.fin d) 0
    let eu0 : ℤ := ea + eb
    let ev0 : ℤ := ec + ed
    let u1 := mpfr_mul (pa + pb) .N emin emax a1 b1
    let eu1 := eu0 - toULong (-(expOf u1.val))
    let u2 := mpfr_set_exp emin emax u1.val 0
    let v1 := mpfr_mul (pc + pd) .N emin emax c1 d1
    let v2 := if sign < 0 then negv v1.val else v1.val
    let ev1 := ev0 - toULong (-(expOf v2))
    let v3 := mpfr_set_exp emin emax v2 0
    if z0.val.isNan then
      -- lines 99-128: genuine overflow, align the larger summand at emax
      if ev1 ≤ eu1 then
        let u3 := mpfr_set_exp emin emax u2 emax
        let eu2 := eu1 - toULong emax
        let ev2 := ev1 - eu2
        let v4 := mpfr_set_exp emin emax v3 (ulongToLong (mpzGetUi ev2))
        let zadd := mpfr_add pz rnd emin emax u3 v4
        let zres := mpfr_mul_2ui pz rnd emin emax zadd.val (mpzGetUi eu2)
        (zres.val, if zres.inex ≠ 0 then zres.inex else zadd.inex)
      else
        let v4 := mpfr_set_exp emin emax v3 emax
        let ev2 := ev1 - toULong emax
        let eu2 := eu1 - ev2
        let u3 := mpfr_set_exp emin emax u2 (ulongToLong (mpzGetUi eu2))
        let zadd := mpfr_add pz rnd emin emax u3 v4
        let zres := mpfr_mul_2ui pz rnd emin emax zadd.val (mpzGetUi ev2)
        (zres.val, if zres.inex ≠ 0 then zres.inex else zadd.inex)
    else
      -- lines 129-153: genuine underflow, align the smaller summand at emin
      if eu1 ≤ ev1 then
        let u3 := mpfr_set_exp emin emax u2 emin
        let eu2 := eu1 + toULong (-emin)
        let ev2 := ev1 - eu2
        let v4 := mpfr_set_exp emin emax v3 (mpzGetSi ev2)
        let zadd := mpfr_add pz rnd emin emax u3 v4
        let zres := mpfr_div_2ui pz rnd emin emax zadd.val (mpzGetUi (-eu2))
        (zres.val, if zres.inex ≠ 0 then zres.inex else zadd.inex)
      else
        let v4 := mpfr_set_exp emin emax v3 emin
        let ev2 := ev1 + toULong (-emin)
        let eu2 := eu1 - ev2
        let u3 := mpfr_set_exp emin emax u2 (mpzGetSi eu2)
        let zadd := mpfr_add pz rnd emin emax u3 v4
        let zres := mpfr_div_2ui pz rnd emin emax zadd.val (mpzGetUi (-ev2))
        (zres.val, if zres.inex ≠ 0 then zres.inex else zadd.inex)
  else (z0.val, z0.inex)

/-! ### Helpers from mpc-impl.h (not part of `src/`) -/

/-- Modelled from the spec: `INV_RND` (mpc-impl.h, not under `src/`)
exchanges the directions toward plus and minus infinity, used by the
purely imaginary shortcut of §4.2b. -/
def INV_RND : Rnd → Rnd
  | .U => .D
  | .D => .U
  | r => r

/-- Modelled from the spec: `mpc_ceil_log2` (mpc's logging helper, not
under `src/`) is the ceiling of the base-2 logarithm, "the target
precision's own logarithm plus a small constant" growth of §4.2d. -/
def mpc_ceil_log2 (n : ℕ) : ℕ := bits (n - 1)

/-- Modelled from the spec: `mpc_conj` (mpc/src/conj.c, not under
`src/`) conjugates in place; at unchanged precision both component
operations are exact, so it negates the imaginary part. -/
def mpc_conj (re im : MpfrVal) : MpfrVal × MpfrVal := (re, negv im)

/-! ### The Karatsuba loop body of `mpc_sqr` (sqr.c lines 268-356)

`ROUND_AWAY (mpfr_add (u, x, y, MPFR_RNDA), u)` is modelled as an
addition rounded away from zero, which is what the macro performs. -/

/-- `u = x + y` rounded away at the working precision (line 279). -/
def karU (prec1 : ℕ) (emin emax : ℤ) (x yv : MpfrVal) : RetF :=
  mpfr_add prec1 .A emin emax x yv

/-- `v = x - y` rounded away at the working precision (line 280). -/
def karV (prec1 : ℕ) (emin emax : ℤ) (x yv : MpfrVal) : RetF :=
  mpfr_sub prec1 .A emin emax x yv

/-- `u * v` with the directed rounding chosen from the product's sign
(lines 293 and 317). -/
def karM (prec1 : ℕ) (emin emax : ℤ) (x yv : MpfrVal) (dir : Rnd) : RetF :=
  mpfr_mul prec1 dir emin emax (karU prec1 emin emax x yv).val
    (karV prec1 emin emax x yv).val

/-- Outcome of one pass through the body of the do-while loop. -/
inductive KStep where
  | done : MpfrVal → ℤ → KStep
  | next : KStep
  | afail : KStep
deriving DecidableEq, Repr

/-- One iteration of the Karatsuba do-while body at working precision
`prec1` (sqr.c lines 275-354): `done v ix` means the loop exits with
`rop`'s real part set to `v` and `inex_re = ix`; `next` means another
iteration runs; `afail` means `MPC_ASSERT (mpfr_get_exp (u) != emin)`
on line 297 fails and the program aborts. -/
def karStep (prec1 pre : ℕ) (rndre : Rnd) (emin emax : ℤ) (x yv : MpfrVal) : KStep :=
  let ru := karU prec1 emin emax x yv
  let rv := karV prec1 emin emax x yv
  let inexact0 : ℤ := Int.lor ru.inex rv.inex
  let u := ru.val
  let v := rv.val
  if sgnv u = 0 ∨ sgnv v = 0 then
    -- lines 284-290: as we have rounded away, the result is exact
    .done (.zero false) 0
  else if 0 < sgnv u * sgnv v then
    -- lines 291-313
    let rm := karM prec1 emin emax x yv .U
    let inexact := Int.lor inexact0 rm.inex
    if expOf rm.val = emin then .afail
    else if rm.val.isInf then
      -- lines 298-303: mpfr_set_ui_2exp (rop->re, 1, emax, rnd)
      let r := roundB rndre pre emin emax (pow2 emax) false
      .done r.val r.inex
    else
      let ok := inexact = 0 ∨
        mpfr_can_round rm.val ((prec1 : ℤ) - 3) .U .Z
          (pre + (if rndre = .N then 1 else 0))
      if ok then
        let r := mpfr_set pre rndre emin emax rm.val
        .done r.val (if r.inex = 0 then inexact else r.inex)
      else .next
  else
    -- lines 314-354
    let rm := karM prec1 emin emax x yv .D
    let inexact := Int.lor inexact0 rm.inex
    if rm.val.isInf then
      -- lines 320-326: replace by "correctly rounded overflow" in u
      let u2 := mpfr_mul_2ui prec1 rndre emin emax (.fin (-1)) (toULong emax).toNat
      let r := mpfr_set pre rndre emin emax u2.val
      .done r.val (if r.inex = 0 then inexact else r.inex)
    else if expOf rm.val = emin then
      -- lines 331-344: underflow boundary
      if rndre = .Z ∨ rndre = .N ∨ rndre = .U then
        .done (.zero false) 1
      else
        let r := mpfr_set pre rndre emin emax rm.val
        .done r.val (-1)
    else
      let ok := inexact = 0 ∨
        mpfr_can_round rm.val ((prec1 : ℤ) - 3) .D .Z
          (pre + (if rndre = .N then 1 else 0))
      if ok then
        let r := mpfr_set pre rndre emin emax rm.val
        .done r.val (if r.inex = 0 then inexact else r.inex)
      else .next

/-- Result of the whole loop: the stored real part and `inex_re`, or an
assertion failure. -/
inductive KOut where
  | ok : MpfrVal → ℤ → KOut
  | afail : KOut
deriving DecidableEq, Repr

/-- The do-while loop (lines 268-356), with explicit fuel; `none` means
the fuel was exhausted before the loop exited. -/
def karLoop (pre : ℕ) (rndre : Rnd) (emin emax : ℤ) (x yv : MpfrVal) :
    ℕ → ℕ → Option KOut
  | 0, _ => none
  | f+1, prec =>
      let prec1 := prec + mpc_ceil_log2 prec + 5
      match karStep prec1 pre rndre emin emax x yv with
      | .done v ix => some (.ok v ix)
      | .afail => some .afail
      | .next => karLoop pre rndre emin emax x yv f prec1

/-- The imaginary part of the square (sqr.c lines 362-370): `x*y`
rounded at the imaginary target, then doubled unless that
multiplication underflowed. -/
def imagPart (pim : ℕ) (rndim : Rnd) (emin emax : ℤ) (x yv : MpfrVal) : MpfrVal × ℤ :=
  let m := mpfr_mul pim rndim emin emax x yv
  if m.undf then (m.val, m.inex)
  else
    let d := mpfr_mul_2ui pim rndim emin emax m.val 1
    (d.val, Int.lor m.inex d.inex)

/-! ### `mpc_sqr` (sqr.c lines 171-376) -/

/-- The two mpfr cells of an `mpc_t`. -/
structure Mpc where
  re : MpfrVal
  im : MpfrVal
deriving DecidableEq, Repr

/-- Result of `mpc_sqr`: the stored components and the two inexact
flags packed by `MPC_INEX`, or the `MPC_ASSERT` abort. -/
inductive SqrRes where
  | ok : MpfrVal → MpfrVal → ℤ → ℤ → SqrRes
  | abort : SqrRes
deriving DecidableEq, Repr

/-- `mpc_sqr rop op rnd`.

The output storage is threaded explicitly so that the `rop == op` case
is the same function with `alias = true`: every read of a component of
`op` goes through the current contents of the output cells when
aliased.  `pre, pim` are `rop`'s precisions, `pxre, pxim` are `op`'s
precisions, `opre, opim` the values of `op`'s components on entry and
`fuel` bounds the number of iterations of the Ziv loop (`none` =
fuel exhausted). -/
def mpc_sqr (aliased : Bool) (pre pim pxre pxim : ℕ) (opre opim : MpfrVal)
    (rndre rndim : Rnd) (emin emax : ℤ) (fuel : ℕ) : Option SqrRes :=
  let s0 : Mpc := if aliased then ⟨opre, opim⟩ else ⟨.nan, .nan⟩
  let rdRe : Mpc → MpfrVal := fun s => if aliased then s.re else opre
  let rdIm : Mpc → MpfrVal := fun s => if aliased then s.im else opim
  -- special values: NaN and infinities (lines 184-214)
  if ¬((rdRe s0).isNumber ∧ (rdIm s0).isNumber) then
    if (rdRe s0).isNan ∨ (rdIm s0).isNan then
      some (.ok .nan .nan 0 0)
    else if (rdRe s0).isInf then
      if (rdIm s0).isInf then
        some (.ok .nan (.inf (decide (msign (rdRe s0) * msign (rdIm s0) < 0))) 0 0)
      else
        some (.ok (.inf false)
          (if (rdIm s0).isZero then .nan
           else .inf (decide (msign (rdRe s0) * msign (rdIm s0) < 0))) 0 0)
    else
      some (.ok (.inf true)
        (if (rdRe s0).isZero then .nan
         else .inf (decide (msign (rdRe s0) * msign (rdIm s0) < 0))) 0 0)
  -- check for real resp. purely imaginary number (lines 218-235)
  else if (rdIm s0).isZero then
    let same := ((rdRe s0).signbit == (rdIm s0).signbit)
    let rsq := mpfr_sqr pre rndre emin emax (rdRe s0)
    let s1 : Mpc := { s0 with re := rsq.val }
    let s2 : Mpc := { s1 with im := .zero false }
    let s3 : Mpc := if same then s2
      else
        let c := mpc_conj s2.re s2.im
        ⟨c.1, c.2⟩
    some (.ok s3.re s3.im rsq.inex 0)
  else if (rdRe s0).isZero then
    let same := ((rdRe s0).signbit == (rdIm s0).signbit)
    let rsq := mpfr_sqr pre (INV_RND rndre) emin emax (rdIm s0)
    let s1 : Mpc := { s0 with re := negv rsq.val }
    let s2 : Mpc := { s1 with im := .zero false }
    let s3 : Mpc := if same then s2
      else
        let c := mpc_conj s2.re s2.im
        ⟨c.1, c.2⟩
    some (.ok s3.re s3.im (-rsq.inex) 0)
  else
    -- lines 237-244: x holds the value of op->re in either aliasing case
    let x := rdRe s0
    -- dispatch on the exponent skew (lines 247-259)
    if ((max pxre pxim : ℕ) / 2 : ℕ) < (expOf x - expOf (rdIm s0)).natAbs then
      let r := mpfr_fmma pre pxre pxre pxim pxim (valQ x) (valQ x)
        (valQ (rdIm s0)) (valQ (rdIm s0)) (-1) rndre emin emax
      let s1 : Mpc := { s0 with re := r.1 }
      let im1 := imagPart pim rndim emin emax x (rdIm s1)
      let s2 : Mpc := { s1 with im := im1.1 }
      some (.ok s2.re s2.im r.2 im1.2)
    else
      -- Karatsuba squaring (lines 260-356), prec starts at MPC_MAX_PREC (rop)
      match karLoop pre rndre emin emax x (rdIm s0) fuel (max pre pim) with
      | none => none
      | some .afail => some .abort
      | some (.ok v ix) =>
          let s1 : Mpc := { s0 with re := v }
          let im1 := imagPart pim rndim emin emax x (rdIm s1)
          let s2 : Mpc := { s1 with im := im1.1 }
          some (.ok s2.re s2.im ix im1.2)

/-! ### Derived facts about rounding used by the claim proofs -/

theorem qsign_zero : qsign 0 = 0 := rfl

theorem qsign_pos {q : ℚ} (h : 0 < q) : qsign q = 1 := by
  unfold qsign
  exact Int.sign_eq_one_of_pos (Rat.num_pos.mpr h)

theorem qsign_neg {q : ℚ} (h : q < 0) : qsign q = -1 := by
  unfold qsign
  exact Int.sign_eq_neg_one_of_neg (Rat.num_neg.mpr h)

theorem qexp_mul_pow2 {q : ℚ} (hq : q ≠ 0) (t : ℤ) : qexp (q * pow2 t) = qexp q + t := by
  obtain ⟨hlo, hhi⟩ := qexp_spec hq
  have hne : q * pow2 t ≠ 0 := mul_ne_zero hq (pow2_ne_zero t)
  apply qexp_eq_of hne
  · rw [qabs_eq_abs, abs_mul, abs_of_pos (pow2_pos t), ← qabs_eq_abs]
    calc pow2 (qexp q + t - 1) = pow2 (qexp q - 1) * pow2 t := by
          rw [← pow2_add]
          congr 1
          ring
      _ ≤ qabs q * pow2 t := mul_le_mul_of_nonneg_right hlo (le_of_lt (pow2_pos t))
  · rw [qabs_eq_abs, abs_mul, abs_of_pos (pow2_pos t), ← qabs_eq_abs]
    calc qabs q * pow2 t < pow2 (qexp q) * pow2 t :=
          mul_lt_mul_of_pos_right hhi (pow2_pos t)
      _ = pow2 (qexp q + t) := (pow2_add _ _).symm

/-- `x` is exactly representable with a `p`-bit mantissa. -/
def RepAt (p : ℕ) (x : ℚ) : Prop := ∃ n k : ℤ, x = mkQ n * pow2 k ∧ n.natAbs < 2 ^ p

theorem roundQ_eq_self {rnd : Rnd} {p : ℕ} {x : ℚ} (h : RepAt p x) :
    roundQ rnd p x = x := by
  obtain ⟨n, k, rfl, hn⟩ := h
  exact roundQ_dyadic rnd p n k hn

theorem zero_repAt (p : ℕ) : RepAt p 0 := by
  refine ⟨0, 0, ?_, by positivity⟩
  rw [mkQ_eq]
  push_cast
  ring

theorem repAt_neg {p : ℕ} {x : ℚ} (h : RepAt p x) : RepAt p (-x) := by
  obtain ⟨n, k, rfl, hn⟩ := h
  refine ⟨-n, k, ?_, by simpa using hn⟩
  rw [mkQ_eq, mkQ_eq]
  push_cast
  ring

theorem repAt_mul_pow2 {p : ℕ} {x : ℚ} (h : RepAt p x) (t : ℤ) : RepAt p (x * pow2 t) := by
  obtain ⟨n, k, rfl, hn⟩ := h
  exact ⟨n, k + t, by rw [pow2_add]; ring, hn⟩

theorem repAt_mono {p p' : ℕ} {x : ℚ} (h : RepAt p x) (hpp : p ≤ p') : RepAt p' x := by
  obtain ⟨n, k, rfl, hn⟩ := h
  exact ⟨n, k, rfl, lt_of_lt_of_le hn (Nat.pow_le_pow_right (by omega) hpp)⟩

theorem pow2_repAt (p : ℕ) (e : ℤ) (hp : 1 ≤ p) : RepAt p (pow2 e) := by
  refine ⟨1, e, ?_, ?_⟩
  · rw [mkQ_eq]
    push_cast
    ring
  · have : (1 : ℕ) < 2 ^ p := by
      calc (1 : ℕ) < 2 ^ 1 := by norm_num
        _ ≤ 2 ^ p := Nat.pow_le_pow_right (by norm_num) hp
    simpa using this

/-- The output of `roundQ` is itself `p`-bit representable. -/
theorem roundQ_repAt (rnd : Rnd) (p : ℕ) (x : ℚ) (hp : 1 ≤ p) :
    RepAt p (roundQ rnd p x) := by
  by_cases hx : x = 0
  · rw [hx, roundQ_zero]
    exact zero_repAt p
  · unfold roundQ
    rw [if_neg hx]
    set s : ℤ := (p : ℤ) - qexp x with hs
    set y : ℚ := x * pow2 s with hy
    set n : ℤ := rndInt rnd y with hn
    have hybound : qabs y < pow2 (p : ℤ) := by
      obtain ⟨_, hhi⟩ := qexp_spec hx
      rw [hy, qabs_eq_abs, abs_mul, abs_of_pos (pow2_pos s), ← qabs_eq_abs]
      calc qabs x * pow2 s < pow2 (qexp x) * pow2 s :=
            mul_lt_mul_of_pos_right hhi (pow2_pos s)
        _ = pow2 (p : ℤ) := by
            rw [← pow2_add]
            congr 1
            omega
    have hyabs : |y| < ((2 ^ p : ℤ) : ℚ) := by
      rw [← qabs_eq_abs]
      calc qabs y < pow2 (p : ℤ) := hybound
        _ = ((2 ^ p : ℤ) : ℚ) := by
            rw [pow2_natCast]
            push_cast
            ring
    have hnbound : n.natAbs ≤ 2 ^ p := by
      obtain ⟨hf, hc⟩ := rndInt_between rnd y
      have hyl : -(((2 ^ p : ℕ) : ℤ) : ℚ) < y := by
        have h2 := (abs_lt.mp hyabs).1
        push_cast at h2 ⊢
        linarith
      have hyu : y < (((2 ^ p : ℕ) : ℤ) : ℚ) := by
        have h2 := (abs_lt.mp hyabs).2
        push_cast at h2 ⊢
        linarith
      have h1 : -(((2 ^ p : ℕ) : ℤ)) ≤ n := by
        have hfl : -(((2 ^ p : ℕ) : ℤ)) ≤ ⌊y⌋ := by
          apply Int.le_floor.mpr
          push_cast at hyl ⊢
          linarith
        omega
      have h2 : n ≤ ((2 ^ p : ℕ) : ℤ) := by
        have hcl : ⌈y⌉ ≤ ((2 ^ p : ℕ) : ℤ) := Int.ceil_le.mpr (le_of_lt hyu)
        omega
      omega
    rcases Nat.lt_or_ge n.natAbs (2 ^ p) with hlt | hge
    · exact ⟨n, -s, rfl, hlt⟩
    · have heq : n.natAbs = 2 ^ p := le_antisymm hnbound hge
      have hn2 : n = 2 ^ p ∨ n = -(2 ^ p) := by
        rcases Int.natAbs_eq n with h | h
        · left
          rw [h, heq]
          push_cast
          ring
        · right
          rw [h, heq]
          push_cast
          ring
      have h1lt : (1 : ℤ).natAbs < 2 ^ p := by
        simp only [Int.natAbs_one]
        calc (1 : ℕ) < 2 ^ 1 := by norm_num
          _ ≤ 2 ^ p := Nat.pow_le_pow_right (by norm_num) hp
      rcases hn2 with h | h
      · refine ⟨1, (p : ℤ) - s, ?_, h1lt⟩
        show mkQ n * pow2 (-s) = mkQ 1 * pow2 ((p : ℤ) - s)
        rw [h, mkQ_eq, mkQ_eq, pow2_eq, pow2_eq]
        push_cast
        rw [← zpow_natCast (2 : ℚ) p, ← zpow_add₀ (two_ne_zero' ℚ)]
        have he : (p : ℤ) + -s = (p : ℤ) - s := by ring
        rw [he]
        ring
      · refine ⟨-1, (p : ℤ) - s, ?_, by simpa using h1lt⟩
        show mkQ n * pow2 (-s) = mkQ (-1) * pow2 ((p : ℤ) - s)
        rw [h, mkQ_eq, mkQ_eq, pow2_eq, pow2_eq]
        push_cast
        rw [← zpow_natCast (2 : ℚ) p, neg_mul, ← zpow_add₀ (two_ne_zero' ℚ)]
        have he : (p : ℤ) + -s = (p : ℤ) - s := by ring
        rw [he]
        ring

theorem roundB_exact (rnd : Rnd) (p : ℕ) (emin emax : ℤ) {x : ℚ} (zs : Bool)
    (hrep : RepAt p x) (hx : x ≠ 0) (hlo : emin ≤ qexp x) (hhi : qexp x ≤ emax) :
    roundB rnd p emin emax x zs = ⟨.fin x, 0, false⟩ := by
  unfold roundB
  rw [if_neg hx, roundQ_eq_self hrep, if_neg (not_lt.mpr hhi), if_neg (not_lt.mpr hlo),
    sub_self, qsign_zero]

theorem minmag_ne_zero (emin : ℤ) : minmag emin ≠ 0 := pow2_ne_zero _

theorem uflVal_A_ne_zero (emin : ℤ) (x : ℚ) : uflVal .A emin x ≠ 0 := by
  show (if x < 0 then -(minmag emin) else minmag emin) ≠ 0
  split
  · exact neg_ne_zero.mpr (minmag_ne_zero emin)
  · exact minmag_ne_zero emin

/-- An away-rounded result is zero only for a zero argument. -/
theorem roundB_A_val_zero {p : ℕ} {emin emax : ℤ} {x : ℚ} {zs s : Bool}
    (h : (roundB .A p emin emax x zs).val = .zero s) : x = 0 := by
  by_contra hx
  unfold roundB at h
  rw [if_neg hx] at h
  split at h
  · revert h
    show ovfVal .A p emax (decide (x < 0)) ≠ .zero s
    show MpfrVal.inf (decide (x < 0)) ≠ .zero s
    simp
  · split at h
    · revert h
      show (if uflVal .A emin x = 0 then MpfrVal.zero (decide (x < 0))
        else MpfrVal.fin (uflVal .A emin x)) ≠ .zero s
      rw [if_neg (uflVal_A_ne_zero emin x)]
      simp
    · revert h
      show MpfrVal.fin (roundQ .A p x) ≠ .zero s
      simp

theorem maxval_pos {p : ℕ} (emax : ℤ) (hp : 1 ≤ p) : 0 < maxval p emax := by
  unfold maxval
  apply mul_pos _ (pow2_pos emax)
  have : pow2 (-(p : ℤ)) < 1 := by
    calc pow2 (-(p : ℤ)) < pow2 0 := pow2_lt_pow2 (by omega)
      _ = 1 := by norm_num [pow2]
  linarith

theorem maxval_repAt {p : ℕ} (emax : ℤ) (hp : 1 ≤ p) : RepAt p (maxval p emax) := by
  refine ⟨2 ^ p - 1, emax - (p : ℤ), ?_, ?_⟩
  · unfold maxval
    rw [mkQ_eq, pow2_eq, pow2_eq, pow2_eq]
    push_cast
    rw [← zpow_natCast (2 : ℚ) p]
    have hsplit : (2 : ℚ) ^ emax = 2 ^ (p : ℤ) * 2 ^ (emax - (p : ℤ)) := by
      rw [← zpow_add₀ (two_ne_zero' ℚ)]
      congr 1
      ring
    have hinv : (2 : ℚ) ^ (-(p : ℤ)) * 2 ^ ((p : ℤ)) = 1 := by
      rw [← zpow_add₀ (two_ne_zero' ℚ)]
      norm_num
    rw [hsplit]
    linear_combination (-(2 : ℚ) ^ (emax - (p : ℤ))) * hinv
  · have h2 : (2 ^ p - 1 : ℤ) = ((2 ^ p - 1 : ℕ) : ℤ) := by
      push_cast [Nat.cast_sub (Nat.one_le_two_pow)]
      ring
    rw [h2, Int.natAbs_ofNat]
    have := Nat.one_le_two_pow (n := p)
    omega

theorem qexp_maxval {p : ℕ} (emax : ℤ) (hp : 1 ≤ p) : qexp (maxval p emax) = emax := by
  have hmaxpos := maxval_pos emax hp
  apply qexp_eq_of (ne_of_gt hmaxpos)
  · rw [qabs_of_pos hmaxpos]
    unfold maxval
    have h1 : pow2 (-(p : ℤ)) ≤ pow2 (-1 : ℤ) := pow2_le_pow2 (by omega)
    have h2 : pow2 (-1 : ℤ) = 1/2 := by
      rw [pow2_eq]
      norm_num
    calc pow2 (emax - 1) = (1/2) * pow2 emax := by
          rw [← h2, ← pow2_add]
          congr 1
          ring
      _ ≤ (1 - pow2 (-(p : ℤ))) * pow2 emax := by
          apply mul_le_mul_of_nonneg_right _ (le_of_lt (pow2_pos emax))
          rw [h2] at h1
          linarith
  · rw [qabs_of_pos hmaxpos]
    unfold maxval
    have : (1 - pow2 (-(p : ℤ))) < 1 := by
      have := pow2_pos (-(p : ℤ))
      linarith
    calc (1 - pow2 (-(p : ℤ))) * pow2 emax < 1 * pow2 emax :=
        mul_lt_mul_of_pos_right this (pow2_pos emax)
      _ = pow2 emax := by ring

/-- Inversion: a finite, non-underflowed result of `roundB` is `p`-bit
representable with exponent in range. -/
theorem roundB_fin_inv {rnd : Rnd} {p : ℕ} {emin emax : ℤ} {x : ℚ} {zs : Bool}
    {q : ℚ} {ix : ℤ}
    (hee : emin ≤ emax) (hp : 1 ≤ p)
    (h : roundB rnd p emin emax x zs = ⟨.fin q, ix, false⟩) :
    RepAt p q ∧ emin ≤ qexp q ∧ qexp q ≤ emax ∧ q ≠ 0 := by
  unfold roundB at h
  by_cases hx : x = 0
  · rw [if_pos hx] at h
    simp at h
  · rw [if_neg hx] at h
    split at h
    · -- overflow: only the clamped modes can deliver a finite value
      have hval : ovfVal rnd p emax (decide (x < 0)) = .fin q := congrArg RetF.val h
      have hqmax : q = maxval p emax ∨ q = -(maxval p emax) := by
        cases rnd with
        | N => exact absurd hval (by simp [ovfVal])
        | A => exact absurd hval (by simp [ovfVal])
        | Z =>
          have h1 : MpfrVal.fin (if decide (x < 0) = true then -(maxval p emax)
              else maxval p emax) = MpfrVal.fin q := hval
          injection h1 with h2
          split at h2
          · exact Or.inr h2.symm
          · exact Or.inl h2.symm
        | U =>
          have h1 : (if decide (x < 0) = true then MpfrVal.fin (-(maxval p emax))
              else MpfrVal.inf false) = MpfrVal.fin q := hval
          split at h1
          · injection h1 with h2
            exact Or.inr h2.symm
          · exact absurd h1 (by simp)
        | D =>
          have h1 : (if decide (x < 0) = true then MpfrVal.inf true
              else MpfrVal.fin (maxval p emax)) = MpfrVal.fin q := hval
          split at h1
          · exact absurd h1 (by simp)
          · injection h1 with h2
            exact Or.inl h2.symm
      have hrep := maxval_repAt emax hp
      have hmaxpos := maxval_pos emax hp
      have hqe := qexp_maxval emax hp
      rcases hqmax with rfl | rfl
      · exact ⟨hrep, by omega, by omega, ne_of_gt hmaxpos⟩
      · refine ⟨repAt_neg hrep, ?_, ?_, neg_ne_zero.mpr (ne_of_gt hmaxpos)⟩
        · rw [qexp_neg _ (ne_of_gt hmaxpos)]
          omega
        · rw [qexp_neg _ (ne_of_gt hmaxpos)]
          omega
    · -- below the overflow threshold
      rename_i hnovf
      split at h
      · -- underflow: the undf field would be true
        exact absurd (congrArg RetF.undf h) (by simp)
      · -- regular case
        rename_i hnufl
        have hval : MpfrVal.fin (roundQ rnd p x) = .fin q := congrArg RetF.val h
        injection hval with hq
        refine ⟨?_, ?_, ?_, ?_⟩
        · rw [← hq]
          exact roundQ_repAt rnd p x hp
        · rw [← hq]
          omega
        · rw [← hq]
          omega
        · rw [← hq]
          exact roundQ_ne_zero rnd p hx hp

theorem roundB_ovf (rnd : Rnd) (p : ℕ) (emin emax : ℤ) {x : ℚ} (zs : Bool)
    (hx : x ≠ 0) (hovf : emax < qexp (roundQ rnd p x)) :
    roundB rnd p emin emax x zs =
      ⟨ovfVal rnd p emax (decide (x < 0)), ovfInex rnd (decide (x < 0)), false⟩ := by
  unfold roundB
  rw [if_neg hx, if_pos hovf]

theorem roundB_pow2_ovf (rnd : Rnd) (p : ℕ) (emin emax : ℤ) (zs : Bool) (hp : 1 ≤ p) :
    roundB rnd p emin emax (pow2 emax) zs =
      ⟨ovfVal rnd p emax false, ovfInex rnd false, false⟩ := by
  have h1 : roundQ rnd p (pow2 emax) = pow2 emax := roundQ_eq_self (pow2_repAt p emax hp)
  have h2 : decide (pow2 emax < 0) = false :=
    decide_eq_false (not_lt.mpr (le_of_lt (pow2_pos emax)))
  have h3 := roundB_ovf rnd p emin emax (x := pow2 emax) zs (pow2_ne_zero emax)
    (by rw [h1, qexp_pow2]; omega)
  rw [h3, h2]

theorem roundB_neg_pow2_ovf (rnd : Rnd) (p : ℕ) (emin emax : ℤ) (zs : Bool) (hp : 1 ≤ p) :
    roundB rnd p emin emax (-(pow2 emax)) zs =
      ⟨ovfVal rnd p emax true, ovfInex rnd true, false⟩ := by
  have hne : -(pow2 emax) ≠ 0 := neg_ne_zero.mpr (pow2_ne_zero emax)
  have h1 : roundQ rnd p (-(pow2 emax)) = -(pow2 emax) :=
    roundQ_eq_self (repAt_neg (pow2_repAt p emax hp))
  have h2 : decide (-(pow2 emax) < 0) = true :=
    decide_eq_true (neg_neg_of_pos (pow2_pos emax))
  have h3 := roundB_ovf rnd p emin emax (x := -(pow2 emax)) zs hne
    (by rw [h1, qexp_neg _ (pow2_ne_zero emax), qexp_pow2]; omega)
  rw [h3, h2]

theorem int_lor_neg_one (x : ℤ) : Int.lor x (-1) = -1 := by
  have hm : ∀ m : ℕ, Nat.ldiff 0 m = 0 := by
    intro m
    show Nat.bitwise _ 0 m = 0
    rw [Nat.bitwise_zero_left]
    norm_num
  cases x with
  | ofNat m =>
      show Int.negSucc (Nat.ldiff 0 m) = Int.negSucc 0
      rw [hm m]
  | negSucc m =>
      show Int.negSucc (Nat.land m 0) = Int.negSucc 0
      congr 1
      exact Nat.and_zero m

/-! ## The claims -/

/-- **C9**: for every operand value, rounding directive, precisions,
exponent range and fuel, calling `mpc_sqr` with the output aliasing the
input (`rop == op`) stores the same component values and returns the
same pair of inexactness flags as calling it with distinct fresh output
storage on the same operand value. -/
theorem mpc_sqr_alias_safe (pre pim pxre pxim : ℕ) (opre opim : MpfrVal)
    (rndre rndim : Rnd) (emin emax : ℤ) (fuel : ℕ) :
    mpc_sqr true pre pim pxre pxim opre opim rndre rndim emin emax fuel =
    mpc_sqr false pre pim pxre pxim opre opim rndre rndim emin emax fuel := rfl

/-- **C10**: the assertion `MPC_ASSERT (mpfr_get_exp (u) != emin)` of
the positive-product branch (sqr.c line 297) is reachable, contradicting
the claim that it never fires: for the finite nonzero operand
`op = 2^-10 + i·2^-11`, precisions 2, exponent range `[-10, 10]` and
rounding to nearest, `u = x+y` and `v = x-y` are positive, the
rounded-up product underflows to `0.5·2^emin`, and `mpc_sqr` aborts. -/
theorem mpc_sqr_assert_fails :
    mpc_sqr false 2 2 2 2 (.fin (Rat.divInt 1 (2 ^ 10))) (.fin (Rat.divInt 1 (2 ^ 11)))
      .N .N (-10) 10 3 = some .abort := by
  with_unfolding_all decide

/-- **C1** (failing-input evaluation): at `op = (15/4, 7/2)` with all
precisions 4, exponent range `[-10, 2]` and rounding to nearest — an
operand with exponent skew 0, far below the dispatch threshold 2 — the
adaptive (Karatsuba) branch of `mpc_sqr` returns `+∞` for the real
part, because the away-rounded intermediate sum `u = x + y = 29/4`
overflows and the branch mistakes this for an overflow of the product;
`mpfr_fmma (x, x, y, y, -1)` at the same target returns `7/4`, which is
exactly the correctly rounded value of `x² - y² = 29/16`.  The two
computations disagree and the adaptive one is not correctly rounded. -/
theorem mpc_sqr_karatsuba_ne_fmma :
    mpc_sqr false 4 4 4 4 (.fin (Rat.divInt 15 4)) (.fin (Rat.divInt 7 2))
        .N .N (-10) 2 5 = some (.ok (.inf false) (.inf false) 1 1) ∧
    mpfr_fmma 4 4 4 4 4 (Rat.divInt 15 4) (Rat.divInt 15 4) (Rat.divInt 7 2)
        (Rat.divInt 7 2) (-1) .N (-10) 2 = (.fin (Rat.divInt 7 4), -1) ∧
    roundB .N 4 (-10) 2 ((Rat.divInt 15 4) * (Rat.divInt 15 4) -
        (Rat.divInt 7 2) * (Rat.divInt 7 2)) false =
      ⟨.fin (Rat.divInt 7 4), -1, false⟩ ∧
    (MpfrVal.inf false ≠ MpfrVal.fin (Rat.divInt 7 4)) := by
  refine ⟨?_, ?_, ?_, ?_⟩ <;> with_unfolding_all decide

/-- **C2** (counterexample): for `op = (+∞, +∞)` the claim prescribes
`+∞` for the real output — the real component being one of the infinite
ones — but the code stores NaN in the real part. -/
theorem mpc_sqr_both_inf_real_nan :
    mpc_sqr false 2 2 2 2 (.inf false) (.inf false) .N .N (-100) 100 1 =
      some (.ok .nan (.inf false) 0 0) ∧
    (MpfrVal.nan ≠ .inf false) ∧ (MpfrVal.nan ≠ .inf true) := by
  refine ⟨?_, ?_, ?_⟩ <;> with_unfolding_all decide

/-- **C4** (counterexample): at `op = (3, 3)` with target precisions 2,
rounding to nearest and `emax = 4`, the product `x·y = 9` rounds to `8`
without underflow, but doubling `8` overflows, so the imaginary result
is `+∞` and not `2·8 = 16` as the claim ("rounded once, then multiplied
by 2") prescribes. -/
theorem mpc_sqr_imag_double_overflow :
    mpc_sqr false 2 2 2 2 (.fin 3) (.fin 3) .N .N (-10) 4 5 =
      some (.ok (.zero false) (.inf false) 0 (-1)) ∧
    (mpfr_mul 2 .N (-10) 4 (.fin 3) (.fin 3)).undf = false ∧
    mpfr_mul 2 .N (-10) 4 (.fin 3) (.fin 3) = ⟨.fin 8, -1, false⟩ ∧
    (MpfrVal.inf false ≠ MpfrVal.fin (2 * 8)) := by
  refine ⟨?_, ?_, ?_, ?_⟩ <;> with_unfolding_all decide

/-- **C2** (amended): for every operand with a non-number component the
special-value table of sqr.c lines 184-214 applies: any NaN component
gives `(NaN, NaN)`; otherwise the real output is `+∞` when only the
real component is infinite, `-∞` when only the imaginary component is,
and NaN when both are; the imaginary output is NaN when the partner of
the infinite component is an exact zero and otherwise an infinity whose
sign is the product of the two component signs; both inexactness flags
are 0, regardless of the rounding directive. -/
theorem mpc_sqr_special (aliased : Bool) (pre pim pxre pxim : ℕ)
    (opre opim : MpfrVal) (rndre rndim : Rnd) (emin emax : ℤ) (fuel : ℕ)
    (h : ¬(opre.isNumber = true ∧ opim.isNumber = true)) :
    mpc_sqr aliased pre pim pxre pxim opre opim rndre rndim emin emax fuel =
      some (.ok
        (if opre.isNan ∨ opim.isNan then .nan
         else if opre.isInf then (if opim.isInf then .nan else .inf false)
         else .inf true)
        (if opre.isNan ∨ opim.isNan then .nan
         else if (opre.isInf ∧ opim.isZero) ∨ (opim.isInf ∧ opre.isZero) then .nan
         else .inf (decide (msign opre * msign opim < 0)))
        0 0) := by
  cases opre <;> cases opim <;> cases aliased <;>
    simp_all [mpc_sqr, MpfrVal.isNumber, MpfrVal.isNan, MpfrVal.isInf,
      MpfrVal.isZero]

/-- Witness for the amended C2 at `op = (+∞, 5)`. -/
theorem mpc_sqr_special_witness :
    mpc_sqr false 2 2 2 2 (.inf false) (.fin 5) .N .N (-10) 10 3 =
      some (.ok (.inf false) (.inf false) 0 0) := by
  rw [mpc_sqr_special false 2 2 2 2 (.inf false) (.fin 5) .N .N (-10) 10 3
    (by decide)]
  with_unfolding_all decide

/-! ### Negation anti-symmetry of rounding

The pure-imaginary shortcut squares in the inverse direction and then
negates; these lemmas show that this realises the direct rounding of
the negated square. -/

theorem qexp_neg_all (q : ℚ) : qexp (-q) = qexp q := by
  by_cases hq : q = 0
  · rw [hq, neg_zero]
  · exact qexp_neg q hq

theorem qsign_neg_eq (q : ℚ) : qsign (-q) = -(qsign q) := by
  unfold qsign
  rw [Rat.neg_num, Int.sign_neg]

theorem decide_neg_lt {x : ℚ} (hx : x ≠ 0) : decide (-x < 0) = !decide (x < 0) := by
  rcases lt_trichotomy x 0 with h | h | h
  · have ha : ¬(-x < 0) := not_lt.mpr (le_of_lt (neg_pos.mpr h))
    simp [h, ha]
  · exact absurd h hx
  · have ha : -x < 0 := neg_lt_zero.mpr h
    have hb : ¬(x < 0) := not_lt.mpr h.le
    simp [ha, hb]

theorem rndInt_neg (rnd : Rnd) (x : ℚ) : rndInt rnd (-x) = -(rndInt (INV_RND rnd) x) := by
  by_cases hint : ((⌊x⌋ : ℤ) : ℚ) = x
  · rw [← hint, ← Int.cast_neg, rndInt_intCast, rndInt_intCast]
  · have hf0 : 0 < x - ⌊x⌋ := by
      rcases lt_or_eq_of_le (Int.floor_le x) with h | h
      · linarith
      · exact absurd h hint
    have hf1 : x - ⌊x⌋ < 1 := by
      have := Int.lt_floor_add_one x
      linarith
    have hc : ⌈x⌉ = ⌊x⌋ + 1 := by
      rw [Int.ceil_eq_iff]
      constructor
      · push_cast
        linarith
      · push_cast
        linarith
    have hfl : ⌊(-x : ℚ)⌋ = -⌊x⌋ - 1 := by
      rw [Int.floor_neg, hc]
      ring
    cases rnd with
    | D =>
      show ⌊(-x : ℚ)⌋ = -⌈x⌉
      exact Int.floor_neg
    | U =>
      show ⌈(-x : ℚ)⌉ = -⌊x⌋
      exact Int.ceil_neg
    | Z =>
      show (if 0 ≤ -x then ⌊(-x : ℚ)⌋ else ⌈(-x : ℚ)⌉) =
        -(if 0 ≤ x then ⌊x⌋ else ⌈x⌉)
      rcases lt_trichotomy x 0 with h | h | h
      · rw [if_pos (by linarith), if_neg (not_le.mpr h), Int.floor_neg]
      · exact absurd ((by rw [h, Int.floor_zero, Int.cast_zero]) : ((⌊x⌋ : ℤ) : ℚ) = x) hint
      · rw [if_neg (not_le.mpr (by linarith)), if_pos h.le, Int.ceil_neg]
    | A =>
      show (if 0 ≤ -x then ⌈(-x : ℚ)⌉ else ⌊(-x : ℚ)⌋) =
        -(if 0 ≤ x then ⌈x⌉ else ⌊x⌋)
      rcases lt_trichotomy x 0 with h | h | h
      · rw [if_pos (by linarith), if_neg (not_le.mpr h), Int.ceil_neg]
      · exact absurd ((by rw [h, Int.floor_zero, Int.cast_zero]) : ((⌊x⌋ : ℤ) : ℚ) = x) hint
      · rw [if_neg (not_le.mpr (by linarith)), if_pos h.le, Int.floor_neg]
    | N =>
      show (if -x - ⌊(-x : ℚ)⌋ < 1/2 then ⌊(-x : ℚ)⌋
            else if 1/2 < -x - ⌊(-x : ℚ)⌋ then ⌊(-x : ℚ)⌋ + 1
            else if ⌊(-x : ℚ)⌋ % 2 = 0 then ⌊(-x : ℚ)⌋ else ⌊(-x : ℚ)⌋ + 1) =
        -(if x - ⌊x⌋ < 1/2 then ⌊x⌋
          else if 1/2 < x - ⌊x⌋ then ⌊x⌋ + 1
          else if ⌊x⌋ % 2 = 0 then ⌊x⌋ else ⌊x⌋ + 1)
      rw [hfl]
      have hcast : ((-⌊x⌋ - 1 : ℤ) : ℚ) = -(⌊x⌋ : ℚ) - 1 := by
        push_cast
        ring
      rw [hcast]
      split_ifs <;> first | omega | (exfalso; linarith)

theorem roundQ_neg (rnd : Rnd) (p : ℕ) (x : ℚ) :
    roundQ rnd p (-x) = -(roundQ (INV_RND rnd) p x) := by
  by_cases hx : x = 0
  · subst hx
    rw [neg_zero, roundQ_zero, roundQ_zero, neg_zero]
  · simp only [roundQ, if_neg hx, if_neg (neg_ne_zero.mpr hx)]
    rw [qexp_neg x hx,
      show -x * pow2 ((p : ℤ) - qexp x) = -(x * pow2 ((p : ℤ) - qexp x)) from by ring,
      rndInt_neg, mkQ_eq, mkQ_eq]
    push_cast
    ring

theorem ovfVal_negb (rnd : Rnd) (p : ℕ) (emax : ℤ) (b : Bool) :
    ovfVal rnd p emax (!b) = negv (ovfVal (INV_RND rnd) p emax b) := by
  cases rnd <;> cases b <;> simp [ovfVal, INV_RND, negv, neg_neg]

theorem ovfInex_negb (rnd : Rnd) (b : Bool) :
    ovfInex rnd (!b) = -(ovfInex (INV_RND rnd) b) := by
  cases rnd <;> cases b <;> decide

theorem uflVal_neg (rnd : Rnd) (emin : ℤ) {x : ℚ} (hx : x ≠ 0) :
    uflVal rnd emin (-x) = -(uflVal (INV_RND rnd) emin x) := by
  rcases lt_trichotomy x 0 with h | h | h
  · have h1 : ¬(-x < 0) := not_lt.mpr (le_of_lt (neg_pos.mpr h))
    cases rnd with
    | Z =>
      show (0 : ℚ) = -(0 : ℚ)
      rw [neg_zero]
    | A =>
      show (if -x < 0 then -(minmag emin) else minmag emin) =
        -(if x < 0 then -(minmag emin) else minmag emin)
      rw [if_neg h1, if_pos h, neg_neg]
    | U =>
      show (if -x < 0 then 0 else minmag emin) =
        -(if x < 0 then -(minmag emin) else 0)
      rw [if_neg h1, if_pos h, neg_neg]
    | D =>
      show (if -x < 0 then -(minmag emin) else 0) =
        -(if x < 0 then 0 else minmag emin)
      rw [if_neg h1, if_pos h, neg_zero]
    | N =>
      show (if qabs (-x) ≤ pow2 (emin - 2) then 0
            else if -x < 0 then -(minmag emin) else minmag emin) =
        -(if qabs x ≤ pow2 (emin - 2) then 0
          else if x < 0 then -(minmag emin) else minmag emin)
      rw [qabs_neg]
      by_cases hc : qabs x ≤ pow2 (emin - 2)
      · rw [if_pos hc, if_pos hc, neg_zero]
      · rw [if_neg hc, if_neg hc, if_neg h1, if_pos h, neg_neg]
  · exact absurd h hx
  · have h1 : -x < 0 := neg_lt_zero.mpr h
    have h2 : ¬(x < 0) := not_lt.mpr h.le
    cases rnd with
    | Z =>
      show (0 : ℚ) = -(0 : ℚ)
      rw [neg_zero]
    | A =>
      show (if -x < 0 then -(minmag emin) else minmag emin) =
        -(if x < 0 then -(minmag emin) else minmag emin)
      rw [if_pos h1, if_neg h2]
    | U =>
      show (if -x < 0 then 0 else minmag emin) =
        -(if x < 0 then -(minmag emin) else 0)
      rw [if_pos h1, if_neg h2, neg_zero]
    | D =>
      show (if -x < 0 then -(minmag emin) else 0) =
        -(if x < 0 then 0 else minmag emin)
      rw [if_pos h1, if_neg h2]
    | N =>
      show (if qabs (-x) ≤ pow2 (emin - 2) then 0
            else if -x < 0 then -(minmag emin) else minmag emin) =
        -(if qabs x ≤ pow2 (emin - 2) then 0
          else if x < 0 then -(minmag emin) else minmag emin)
      rw [qabs_neg]
      by_cases hc : qabs x ≤ pow2 (emin - 2)
      · rw [if_pos hc, if_pos hc, neg_zero]
      · rw [if_neg hc, if_neg hc, if_pos h1, if_neg h2]

theorem roundB_neg (rnd : Rnd) (p : ℕ) (emin emax : ℤ) (x : ℚ) :
    roundB rnd p emin emax (-x) true =
      ⟨negv (roundB (INV_RND rnd) p emin emax x false).val,
        -(roundB (INV_RND rnd) p emin emax x false).inex,
        (roundB (INV_RND rnd) p emin emax x false).undf⟩ := by
  by_cases hx : x = 0
  · subst hx
    rw [neg_zero]
    unfold roundB
    rw [if_pos rfl, if_pos rfl]
    rfl
  · unfold roundB
    rw [if_neg (neg_ne_zero.mpr hx), if_neg hx, roundQ_neg, qexp_neg_all]
    by_cases h1 : emax < qexp (roundQ (INV_RND rnd) p x)
    · rw [if_pos h1, if_pos h1, decide_neg_lt hx, ovfVal_negb, ovfInex_negb]
    · rw [if_neg h1, if_neg h1]
      by_cases h2 : qexp (roundQ (INV_RND rnd) p x) < emin
      · rw [if_pos h2, if_pos h2, uflVal_neg rnd emin hx, decide_neg_lt hx,
          show -(uflVal (INV_RND rnd) emin x) - -x = -(uflVal (INV_RND rnd) emin x - x)
            from by ring,
          qsign_neg_eq]
        by_cases h3 : uflVal (INV_RND rnd) emin x = 0
        · rw [if_pos (by rw [h3, neg_zero]), if_pos h3]
          rfl
        · rw [if_neg (fun hq => h3 (neg_eq_zero.mp hq)), if_neg h3]
          rfl
      · rw [if_neg h2, if_neg h2,
          show -(roundQ (INV_RND rnd) p x) - -x = -(roundQ (INV_RND rnd) p x - x)
            from by ring,
          qsign_neg_eq]
        rfl

/-- **C3**: for every finite operand whose imaginary part is an exact
zero, `mpc_sqr` stores the square of the real part rounded at the real
target precision and mode next to an exact zero imaginary part;
symmetrically, for every finite operand whose real part is an exact
zero (and imaginary part nonzero), it stores the negated square of the
imaginary part — the value `-(im·im)` correctly rounded at the real
target precision and mode — next to an exact zero; in either case the
imaginary zero is negative exactly when the two operand sign bits
disagree (the result is conjugated), the real inexactness flag is the
rounding flag of the stored square, and the imaginary flag is 0. -/
theorem mpc_sqr_degenerate_axis (aliased : Bool) (pre pim pxre pxim : ℕ)
    (opre opim : MpfrVal) (rndre rndim : Rnd) (emin emax : ℤ) (fuel : ℕ)
    (h1 : opre.isNumber = true) (h2 : opim.isNumber = true) :
    (opim.isZero = true →
      mpc_sqr aliased pre pim pxre pxim opre opim rndre rndim emin emax fuel =
        some (.ok (mpfr_sqr pre rndre emin emax opre).val
          (.zero (opre.signbit != opim.signbit))
          (mpfr_sqr pre rndre emin emax opre).inex 0)) ∧
    (opim.isZero = false → opre.isZero = true →
      mpc_sqr aliased pre pim pxre pxim opre opim rndre rndim emin emax fuel =
        some (.ok (roundB rndre pre emin emax (-(valQ opim * valQ opim)) true).val
          (.zero (opre.signbit != opim.signbit))
          (roundB rndre pre emin emax (-(valQ opim * valQ opim)) true).inex 0)) := by
  have halias : mpc_sqr aliased pre pim pxre pxim opre opim rndre rndim emin emax fuel =
      mpc_sqr false pre pim pxre pxim opre opim rndre rndim emin emax fuel := by
    cases aliased <;> rfl
  rw [halias]
  constructor
  · intro hz
    cases opim with
    | nan => simp [MpfrVal.isNumber] at h2
    | inf s => simp [MpfrVal.isNumber] at h2
    | zero s =>
      have hin : (MpfrVal.zero s).isNumber = true := rfl
      have hiz : (MpfrVal.zero s).isZero = true := rfl
      cases hsb : (opre.signbit == (MpfrVal.zero s).signbit) <;>
        simp [mpc_sqr, h1, hin, hiz, hsb, bne, mpc_conj, negv]
    | fin q =>
      have hq : q = 0 := by simpa [MpfrVal.isZero] using hz
      subst hq
      have hin : (MpfrVal.fin (0 : ℚ)).isNumber = true := rfl
      have hiz : (MpfrVal.fin (0 : ℚ)).isZero = true := by
        with_unfolding_all decide
      cases hsb : (opre.signbit == (MpfrVal.fin (0 : ℚ)).signbit) <;>
        simp [mpc_sqr, h1, hin, hiz, hsb, bne, mpc_conj, negv]
  · intro hz hr
    cases opim with
    | nan => simp [MpfrVal.isNumber] at h2
    | inf s => simp [MpfrVal.isNumber] at h2
    | zero s => simp [MpfrVal.isZero] at hz
    | fin q =>
      have hin : (MpfrVal.fin q).isNumber = true := rfl
      have hrb := roundB_neg rndre pre emin emax (q * q)
      cases hsb : (opre.signbit == (MpfrVal.fin q).signbit) <;>
        simp [mpc_sqr, h1, hin, hz, hr, hsb, bne, mpc_conj, negv,
          mpfr_sqr, mpfr_mul, valQ, hrb]

/-- Witness for C3 at `op = (-0, 3)`: the sign bits disagree, so the
result `(-9, +0)` of squaring `3i` is conjugated into `(-9, -0)`. -/
theorem mpc_sqr_degenerate_axis_witness :
    mpc_sqr false 4 4 4 4 (.zero true) (.fin 3) .N .N (-10) 10 3 =
      some (.ok (.fin (-9)) (.zero true) 0 0) := by
  rw [(mpc_sqr_degenerate_axis false 4 4 4 4 (.zero true) (.fin 3) .N .N (-10) 10 3
    rfl rfl).2 (by with_unfolding_all decide) rfl]
  with_unfolding_all decide

/-! ### Exact-zero shortcut of the adaptive loop -/

theorem qsign_eq_zero {q : ℚ} (h : qsign q = 0) : q = 0 := by
  unfold qsign at h
  rw [Int.sign_eq_zero_iff_zero] at h
  exact Rat.num_eq_zero.mp h

/-- An away-rounded result has the sign of its (nonzero) argument; in
particular a zero sign can only come from a zero argument. -/
theorem roundB_A_sgnv_zero {p : ℕ} {emin emax : ℤ} {x : ℚ} {zs : Bool}
    (h : sgnv (roundB .A p emin emax x zs).val = 0) : x = 0 := by
  by_contra hx
  unfold roundB at h
  rw [if_neg hx] at h
  split at h
  · revert h
    show sgnv (ovfVal .A p emax (decide (x < 0))) ≠ 0
    show sgnv (.inf (decide (x < 0))) ≠ 0
    cases hb : decide (x < 0) <;> simp [sgnv]
  · split at h
    · revert h
      show sgnv (if uflVal .A emin x = 0 then MpfrVal.zero (decide (x < 0))
        else MpfrVal.fin (uflVal .A emin x)) ≠ 0
      rw [if_neg (uflVal_A_ne_zero emin x)]
      show qsign (uflVal .A emin x) ≠ 0
      intro hq
      exact uflVal_A_ne_zero emin x (qsign_eq_zero hq)
    · revert h
      show sgnv (MpfrVal.fin (roundQ .A p x)) ≠ 0
      show qsign (roundQ .A p x) ≠ 0
      intro hq
      exact roundQ_A_ne_zero p hx (qsign_eq_zero hq)

/-- **C7**: in the adaptive real-part loop, if `u = x + y` or
`v = x - y` computed with rounding away from zero at the working
precision is exactly zero, then the true value of `x² - y²` is exactly
zero, and the body exits immediately storing `+0` with inexactness flag
0, without any further iteration. -/
theorem karStep_exact_zero (prec1 pre : ℕ) (rndre : Rnd) (emin emax : ℤ) (qx qy : ℚ)
    (h : sgnv (karU prec1 emin emax (.fin qx) (.fin qy)).val = 0 ∨
         sgnv (karV prec1 emin emax (.fin qx) (.fin qy)).val = 0) :
    karStep prec1 pre rndre emin emax (.fin qx) (.fin qy) = .done (.zero false) 0 ∧
      qx * qx - qy * qy = 0 := by
  constructor
  · simp only [karStep]
    rw [if_pos h]
  · rcases h with h | h
    · have h0 : qx + qy = 0 := by
        have h' : sgnv (roundB .A prec1 emin emax (qx + qy) false).val = 0 := h
        exact roundB_A_sgnv_zero h'
      linear_combination (qx - qy) * h0
    · have h0 : qx + -qy = 0 := by
        have h' : sgnv (roundB .A prec1 emin emax (qx + -qy) false).val = 0 := h
        exact roundB_A_sgnv_zero h'
      linear_combination (qx + qy) * h0

/-- Witness for C7 at `x = y = 1`, working precision 7: `v = 0`. -/
theorem karStep_exact_zero_witness :
    karStep 7 2 .N (-10) 10 (.fin 1) (.fin 1) = .done (.zero false) 0 ∧
      (1 : ℚ) * 1 - 1 * 1 = 0 :=
  karStep_exact_zero 7 2 .N (-10) 10 1 1 (Or.inr (by with_unfolding_all decide))

theorem int_lor_zero (x : ℤ) : Int.lor x 0 = x := by
  cases x with
  | ofNat m =>
      show Int.ofNat (m ||| 0) = Int.ofNat m
      rw [Nat.or_zero]
  | negSucc m =>
      show Int.negSucc (Nat.ldiff m 0) = Int.negSucc m
      congr 1
      show Nat.bitwise _ m 0 = m
      rw [Nat.bitwise_zero_right]
      norm_num

/-- **C4** (amended): for every finite operand with both components
nonzero, whenever `mpc_sqr` returns normally the imaginary result is
governed by the single rounding `m = x·y` at the imaginary target: if
that multiplication underflowed, the doubling is skipped and `m`'s
value and flag are returned unchanged; if it did not underflow,
returned a finite value `q`, and the double `2q` still fits below
`emax`, the imaginary result is exactly `2q` with `m`'s inexactness
flag.  (When the doubling overflows, the stored result is the overflow
response instead — the uncorrected claim fails there.) -/
theorem mpc_sqr_imag_part (aliased : Bool) (pre pim pxre pxim : ℕ) (qx qy : ℚ)
    (rndre rndim : Rnd) (emin emax : ℤ) (fuel : ℕ)
    (hx : qx ≠ 0) (hy : qy ≠ 0) (hpim : 1 ≤ pim) (hee : emin ≤ emax)
    {re im : MpfrVal} {ire iim : ℤ}
    (hres : mpc_sqr aliased pre pim pxre pxim (.fin qx) (.fin qy)
      rndre rndim emin emax fuel = some (.ok re im ire iim)) :
    ((mpfr_mul pim rndim emin emax (.fin qx) (.fin qy)).undf = true →
      (im, iim) = ((mpfr_mul pim rndim emin emax (.fin qx) (.fin qy)).val,
        (mpfr_mul pim rndim emin emax (.fin qx) (.fin qy)).inex)) ∧
    (∀ q : ℚ,
      (mpfr_mul pim rndim emin emax (.fin qx) (.fin qy)).undf = false →
      (mpfr_mul pim rndim emin emax (.fin qx) (.fin qy)).val = .fin q →
      qexp q + 1 ≤ emax →
      (im, iim) = (.fin (2 * q),
        (mpfr_mul pim rndim emin emax (.fin qx) (.fin qy)).inex)) := by
  have halias : mpc_sqr aliased pre pim pxre pxim (.fin qx) (.fin qy)
        rndre rndim emin emax fuel =
      mpc_sqr false pre pim pxre pxim (.fin qx) (.fin qy)
        rndre rndim emin emax fuel := by
    cases aliased <;> rfl
  rw [halias] at hres
  have hzx : (MpfrVal.fin qx).isZero = false := by simp [MpfrVal.isZero, hx]
  have hzy : (MpfrVal.fin qy).isZero = false := by simp [MpfrVal.isZero, hy]
  simp [mpc_sqr, MpfrVal.isNumber, hzx, hzy] at hres
  have him : im = (imagPart pim rndim emin emax (.fin qx) (.fin qy)).1 ∧
      iim = (imagPart pim rndim emin emax (.fin qx) (.fin qy)).2 := by
    split at hres
    · simp only [Option.some.injEq, SqrRes.ok.injEq] at hres
      exact ⟨hres.2.1.symm, hres.2.2.2.symm⟩
    · split at hres
      · exact Option.noConfusion hres
      · simp at hres
      · simp only [Option.some.injEq, SqrRes.ok.injEq] at hres
        exact ⟨hres.2.1.symm, hres.2.2.2.symm⟩
  obtain ⟨him1, him2⟩ := him
  subst him1
  subst him2
  constructor
  · intro hundf
    simp only [imagPart]
    rw [if_pos hundf]
  · intro q hundf hval hqe
    have hm : mpfr_mul pim rndim emin emax (.fin qx) (.fin qy) =
        roundB rndim pim emin emax (qx * qy)
          (xor (decide (qx < 0)) (decide (qy < 0))) := rfl
    have hMeq : mpfr_mul pim rndim emin emax (.fin qx) (.fin qy) =
        ⟨.fin q, (mpfr_mul pim rndim emin emax (.fin qx) (.fin qy)).inex, false⟩ := by
      conv_lhs => rw [show mpfr_mul pim rndim emin emax (.fin qx) (.fin qy) =
        ⟨(mpfr_mul pim rndim emin emax (.fin qx) (.fin qy)).val,
         (mpfr_mul pim rndim emin emax (.fin qx) (.fin qy)).inex,
         (mpfr_mul pim rndim emin emax (.fin qx) (.fin qy)).undf⟩ from rfl]
      rw [hval, hundf]
    obtain ⟨hrep, hlo, hhi, hq0⟩ := roundB_fin_inv hee hpim (hm.symm.trans hMeq)
    have hd : mpfr_mul_2ui pim rndim emin emax (.fin q) 1 =
        ⟨.fin (q * pow2 (1 : ℤ)), 0, false⟩ := by
      show roundB rndim pim emin emax (q * pow2 (1 : ℤ)) (decide (q < 0)) = _
      exact roundB_exact rndim pim emin emax (decide (q < 0))
        (repAt_mul_pow2 hrep 1) (mul_ne_zero hq0 (pow2_ne_zero 1))
        (by rw [qexp_mul_pow2 hq0]; omega)
        (by rw [qexp_mul_pow2 hq0]; omega)
    have hmul : q * pow2 (1 : ℤ) = 2 * q := by
      rw [pow2_eq, zpow_one]
      ring
    simp only [imagPart]
    rw [if_neg (by simp [hundf]), hval, hd]
    simp only [int_lor_zero, hmul]

/-- Witness for the amended C4 at `op = 1 + i`: `m = 1·1 = 1` exactly,
no underflow, and the imaginary result is `2·1 = 2` with flag 0. -/
theorem mpc_sqr_imag_part_witness :
    ((MpfrVal.fin 2 : MpfrVal), (0 : ℤ)) =
      (.fin (2 * 1), (mpfr_mul 4 .N (-10) 10 (.fin 1) (.fin 1)).inex) :=
  (mpc_sqr_imag_part false 4 4 4 4 1 1 .N .N (-10) 10 3 (by norm_num) (by norm_num)
    (by norm_num) (by norm_num)
    (by with_unfolding_all decide :
      mpc_sqr false 4 4 4 4 (.fin 1) (.fin 1) .N .N (-10) 10 3 =
        some (.ok (.zero false) (.fin 2) 0 0))).2 1
    (by with_unfolding_all decide) (by with_unfolding_all decide)
    (by with_unfolding_all decide)

/-- **C5** (counterexample): at `op = (7/4, 15/4)`, working precision
11, target precision 4, rounding to nearest, `emax = 2`, the true value
`x² - y² = -11` overflows (`qexp = 4 > emax`), the directed-rounded
tentative product is `-∞` (the away-rounded `u = x + y = 11/2` had
already overflowed to `+∞`), and the loop stores the canonical negative
overflow value `-∞` but with inexactness flag `+1`, whereas the
matching flag for a negative overflow to nearest is `-1`. -/
theorem karStep_neg_inf_flag_mismatch :
    karStep 11 4 .N (-10) 2 (.fin (Rat.divInt 7 4)) (.fin (Rat.divInt 15 4)) =
      .done (.inf true) 1 ∧
    (karM 11 (-10) 2 (.fin (Rat.divInt 7 4)) (.fin (Rat.divInt 15 4)) .D).val.isInf
      = true ∧
    2 < qexp (Rat.divInt 7 4 * Rat.divInt 7 4 - Rat.divInt 15 4 * Rat.divInt 15 4) ∧
    ovfInex .N true = -1 ∧ ((1 : ℤ) = -1 → False) := by
  refine ⟨?_, ?_, ?_, ?_, ?_⟩ <;> with_unfolding_all decide

/-! ### Double rounding of the overflow replacement value -/

theorem maxval_eq (p : ℕ) (emax : ℤ) :
    maxval p emax = mkQ (2 ^ p - 1) * pow2 (emax - (p : ℤ)) := by
  unfold maxval
  rw [mkQ_eq, pow2_eq, pow2_eq, pow2_eq]
  push_cast
  rw [← zpow_natCast (2 : ℚ) p]
  have hsplit : (2 : ℚ) ^ emax = 2 ^ (p : ℤ) * 2 ^ (emax - (p : ℤ)) := by
    rw [← zpow_add₀ (two_ne_zero' ℚ)]
    congr 1
    ring
  have hinv : (2 : ℚ) ^ (-(p : ℤ)) * 2 ^ ((p : ℤ)) = 1 := by
    rw [← zpow_add₀ (two_ne_zero' ℚ)]
    norm_num
  rw [hsplit]
  linear_combination (-(2 : ℚ) ^ (emax - (p : ℤ))) * hinv

theorem maxval_lt_maxval {p p2 : ℕ} (emax : ℤ) (hpp : p < p2) :
    maxval p emax < maxval p2 emax := by
  unfold maxval
  have h1 : pow2 (-(p2 : ℤ)) < pow2 (-(p : ℤ)) := pow2_lt_pow2 (by omega)
  exact mul_lt_mul_of_pos_right (by linarith) (pow2_pos emax)

/-- Rounding `-maxval` of a higher precision toward zero (or upward,
which is the same on negatives) at a lower precision yields `-maxval`
of the lower precision. -/
theorem roundQ_neg_maxval {rnd : Rnd} (hz : rnd = .Z ∨ rnd = .U) {P R : ℕ} (emax : ℤ)
    (hP : 1 ≤ P) (hPR : P ≤ R) :
    roundQ rnd P (-(maxval R emax)) = -(maxval P emax) := by
  have hR1 : 1 ≤ R := le_trans hP hPR
  have hpos := maxval_pos (p := R) emax hR1
  have hne : -(maxval R emax) ≠ 0 := neg_ne_zero.mpr (ne_of_gt hpos)
  have hqe : qexp (-(maxval R emax)) = emax := by
    rw [qexp_neg _ (ne_of_gt hpos), qexp_maxval emax hR1]
  have hq0 : (0 : ℚ) < pow2 ((P : ℤ) - (R : ℤ)) := pow2_pos _
  have hq1 : pow2 ((P : ℤ) - (R : ℤ)) ≤ 1 := by
    calc pow2 ((P : ℤ) - (R : ℤ)) ≤ pow2 0 := pow2_le_pow2 (by omega)
      _ = 1 := by norm_num [pow2]
  have hscale : -(maxval R emax) * pow2 ((P : ℤ) - emax) =
      -(pow2 ((P : ℤ)) - pow2 ((P : ℤ) - (R : ℤ))) := by
    rw [maxval_eq, mkQ_eq]
    have h1 : pow2 (emax - (R : ℤ)) * pow2 ((P : ℤ) - emax) =
        pow2 ((P : ℤ) - (R : ℤ)) := by
      rw [← pow2_add]
      congr 1
      ring
    have h2 : ((2 ^ R - 1 : ℤ) : ℚ) = pow2 ((R : ℤ)) - 1 := by
      rw [pow2_natCast]
      push_cast
      ring
    have h3 : pow2 ((R : ℤ)) * pow2 ((P : ℤ) - (R : ℤ)) = pow2 ((P : ℤ)) := by
      rw [← pow2_add]
      congr 1
      ring
    linear_combination (-((2 ^ R - 1 : ℤ) : ℚ)) * h1 +
      (-(pow2 ((P : ℤ) - (R : ℤ)))) * h2 - h3
  have hP2 : pow2 ((P : ℤ)) = ((2 ^ P : ℕ) : ℚ) := pow2_natCast P
  have hceil : ⌈-(pow2 ((P : ℤ)) - pow2 ((P : ℤ) - (R : ℤ)))⌉ = -(2 ^ P : ℤ) + 1 := by
    rw [Int.ceil_eq_iff]
    constructor
    · rw [hP2]
      push_cast
      linarith
    · rw [hP2]
      push_cast
      linarith
  have hneg : -(pow2 ((P : ℤ)) - pow2 ((P : ℤ) - (R : ℤ))) < 0 := by
    have h2P : (2 : ℚ) ≤ pow2 ((P : ℤ)) := by
      calc (2 : ℚ) = pow2 1 := by rw [pow2_eq]; norm_num
        _ ≤ pow2 ((P : ℤ)) := pow2_le_pow2 (by omega)
    linarith
  have hrnd : rndInt rnd (-(maxval R emax) * pow2 ((P : ℤ) - emax)) =
      -(2 ^ P : ℤ) + 1 := by
    rw [hscale]
    rcases hz with hz | hz <;> subst hz
    · show (if 0 ≤ -(pow2 ((P : ℤ)) - pow2 ((P : ℤ) - (R : ℤ)))
          then ⌊-(pow2 ((P : ℤ)) - pow2 ((P : ℤ) - (R : ℤ)))⌋
          else ⌈-(pow2 ((P : ℤ)) - pow2 ((P : ℤ) - (R : ℤ)))⌉) = -(2 ^ P : ℤ) + 1
      rw [if_neg (not_le.mpr hneg)]
      exact hceil
    · exact hceil
  simp only [roundQ, if_neg hne]
  rw [hqe, hrnd, maxval_eq, mkQ_eq, mkQ_eq]
  have h4 : pow2 (-((P : ℤ) - emax)) = pow2 (emax - (P : ℤ)) := by
    congr 1
    ring
  rw [h4]
  push_cast
  ring

/-- A directed-down product of two finite values that delivers an
infinity must have overflowed negatively, with flag `-1`. -/
theorem mpfr_mul_D_inf {p : ℕ} {emin emax : ℤ} {qu qv : ℚ}
    (h : (mpfr_mul p .D emin emax (.fin qu) (.fin qv)).val.isInf = true) :
    mpfr_mul p .D emin emax (.fin qu) (.fin qv) = ⟨.inf true, -1, false⟩ := by
  have hm : mpfr_mul p .D emin emax (.fin qu) (.fin qv) =
      roundB .D p emin emax (qu * qv) (xor (decide (qu < 0)) (decide (qv < 0))) := rfl
  rw [hm] at h ⊢
  unfold roundB at h ⊢
  by_cases h0 : qu * qv = 0
  · rw [if_pos h0] at h
    simp [MpfrVal.isInf] at h
  · rw [if_neg h0] at h ⊢
    by_cases h1 : emax < qexp (roundQ .D p (qu * qv))
    · rw [if_pos h1] at h ⊢
      by_cases hneg : qu * qv < 0
      · rw [show decide (qu * qv < 0) = true from decide_eq_true hneg]
        rfl
      · exfalso
        rw [show decide (qu * qv < 0) = false from decide_eq_false hneg] at h
        simp [ovfVal, MpfrVal.isInf] at h
    · exfalso
      rw [if_neg h1] at h
      by_cases h2 : qexp (roundQ .D p (qu * qv)) < emin
      · rw [if_pos h2] at h
        revert h
        split <;> simp [MpfrVal.isInf]
      · rw [if_neg h2] at h
        simp [MpfrVal.isInf] at h

/-- **C5** (amended): whenever a tentative computation overflows to
infinity, the stored result is the canonical correctly rounded overflow
response for the target mode.  (a) In the positive branch of the
adaptive loop, an infinite tentative product makes the loop store
`ovfVal`/`ovfInex` for a positive overflow.  (b) In the negative branch
with `u` and `v` finite, it stores `ovfVal`/`ovfInex` for a negative
overflow — including the matching flag, which the uncorrected claim
also asserted when `u` or `v` is infinite (refuted separately).  (c) In
`mpfr_fmma`, an infinite tentative sum is replaced by the canonical
overflow response of the sum's sign. -/
theorem overflow_replacement (prec1 pre pz pa pb pc pd : ℕ) (rndre rnd : Rnd)
    (x yv : MpfrVal) (a b c d : ℚ) (sign : ℤ) (emin emax : ℤ)
    (hpre : 1 ≤ pre) (hprep : pre < prec1) (hpz : 1 ≤ pz)
    (hemax0 : 0 ≤ emax) (hemax : emax < 2 ^ 63) (hee : emin ≤ emax) :
    (¬(sgnv (karU prec1 emin emax x yv).val = 0 ∨
        sgnv (karV prec1 emin emax x yv).val = 0) →
      0 < sgnv (karU prec1 emin emax x yv).val *
        sgnv (karV prec1 emin emax x yv).val →
      expOf (karM prec1 emin emax x yv .U).val ≠ emin →
      (karM prec1 emin emax x yv .U).val.isInf = true →
      karStep prec1 pre rndre emin emax x yv =
        .done (ovfVal rndre pre emax false) (ovfInex rndre false)) ∧
    (∀ qu qv : ℚ,
      ¬(sgnv (karU prec1 emin emax x yv).val = 0 ∨
        sgnv (karV prec1 emin emax x yv).val = 0) →
      ¬(0 < sgnv (karU prec1 emin emax x yv).val *
          sgnv (karV prec1 emin emax x yv).val) →
      (karU prec1 emin emax x yv).val = .fin qu →
      (karV prec1 emin emax x yv).val = .fin qv →
      (karM prec1 emin emax x yv .D).val.isInf = true →
      karStep prec1 pre rndre emin emax x yv =
        .done (ovfVal rndre pre emax true) (ovfInex rndre true)) ∧
    (∀ zres : RetF,
      zres = mpfr_add pz rnd emin emax
        (mpfr_mul (pa + pb) .N emin emax (.fin a) (.fin b)).val
        (if sign < 0 then negv (mpfr_mul (pc + pd) .N emin emax (.fin c) (.fin d)).val
         else (mpfr_mul (pc + pd) .N emin emax (.fin c) (.fin d)).val) →
      zres.val.isInf = true →
      mpfr_fmma pz pa pb pc pd a b c d sign rnd emin emax =
        (ovfVal rnd pz emax zres.val.signbit, ovfInex rnd zres.val.signbit)) := by
  have htu : (((toULong emax).toNat : ℕ) : ℤ) = emax := by
    unfold toULong
    rw [Int.emod_eq_of_lt hemax0 (lt_trans hemax (by norm_num)),
      Int.toNat_of_nonneg hemax0]
  refine ⟨?_, ?_, ?_⟩
  · intro hc1 hpos hexp hinf
    simp only [karStep]
    rw [if_neg hc1, if_pos hpos, if_neg hexp, if_pos hinf,
      roundB_pow2_ovf rndre pre emin emax false hpre]
  · intro qu qv hc1 hnpos hqu hqv hinf
    have hkm : karM prec1 emin emax x yv .D =
        mpfr_mul prec1 .D emin emax (.fin qu) (.fin qv) := by
      unfold karM
      rw [hqu, hqv]
    have hrm : mpfr_mul prec1 .D emin emax (.fin qu) (.fin qv) =
        ⟨.inf true, -1, false⟩ :=
      mpfr_mul_D_inf (by rw [← hkm]; exact hinf)
    have hflag : Int.lor (Int.lor (karU prec1 emin emax x yv).inex
        (karV prec1 emin emax x yv).inex)
        ((karM prec1 emin emax x yv .D).inex) = -1 := by
      rw [hkm, hrm]
      exact int_lor_neg_one _
    have hu2 : mpfr_mul_2ui prec1 rndre emin emax (.fin (-1)) (toULong emax).toNat =
        ⟨ovfVal rndre prec1 emax true, ovfInex rndre true, false⟩ := by
      show roundB rndre prec1 emin emax
        ((-1 : ℚ) * pow2 (((toULong emax).toNat : ℕ) : ℤ)) (decide ((-1 : ℚ) < 0)) = _
      rw [htu, show (-1 : ℚ) * pow2 emax = -(pow2 emax) from by ring,
        show decide ((-1 : ℚ) < 0) = true from by norm_num]
      exact roundB_neg_pow2_ovf rndre prec1 emin emax true
        (le_trans hpre (le_of_lt hprep))
    have hsetZU : ∀ rv : Rnd, rv = .Z ∨ rv = .U →
        roundB rv pre emin emax (-(maxval prec1 emax))
          (decide (-(maxval prec1 emax) < 0)) =
          ⟨.fin (-(maxval pre emax)), 1, false⟩ := by
      intro rv hrv
      have hprec1 : 1 ≤ prec1 := le_trans hpre (le_of_lt hprep)
      have hne2 : -(maxval prec1 emax) ≠ 0 :=
        neg_ne_zero.mpr (ne_of_gt (maxval_pos emax hprec1))
      unfold roundB
      rw [if_neg hne2, roundQ_neg_maxval hrv emax hpre (le_of_lt hprep),
        qexp_neg _ (ne_of_gt (maxval_pos emax hpre)), qexp_maxval emax hpre,
        if_neg (lt_irrefl emax), if_neg (not_lt.mpr hee),
        show -(maxval pre emax) - -(maxval prec1 emax) =
          maxval prec1 emax - maxval pre emax from by ring,
        qsign_pos (sub_pos.mpr (maxval_lt_maxval emax hprep))]
    simp only [karStep]
    rw [if_neg hc1, if_neg hnpos, if_pos hinf, hu2]
    cases rndre with
    | N =>
      show KStep.done (MpfrVal.inf true)
          (if (0 : ℤ) = 0 then Int.lor (Int.lor (karU prec1 emin emax x yv).inex
            (karV prec1 emin emax x yv).inex) ((karM prec1 emin emax x yv .D).inex)
           else 0) = KStep.done (.inf true) (-1)
      rw [if_pos rfl, hflag]
    | A =>
      show KStep.done (MpfrVal.inf true)
          (if (0 : ℤ) = 0 then Int.lor (Int.lor (karU prec1 emin emax x yv).inex
            (karV prec1 emin emax x yv).inex) ((karM prec1 emin emax x yv .D).inex)
           else 0) = KStep.done (.inf true) (-1)
      rw [if_pos rfl, hflag]
    | D =>
      show KStep.done (MpfrVal.inf true)
          (if (0 : ℤ) = 0 then Int.lor (Int.lor (karU prec1 emin emax x yv).inex
            (karV prec1 emin emax x yv).inex) ((karM prec1 emin emax x yv .D).inex)
           else 0) = KStep.done (.inf true) (-1)
      rw [if_pos rfl, hflag]
    | Z =>
      show KStep.done ((roundB .Z pre emin emax (-(maxval prec1 emax))
            (decide (-(maxval prec1 emax) < 0))).val)
          (if (roundB .Z pre emin emax (-(maxval prec1 emax))
              (decide (-(maxval prec1 emax) < 0))).inex = 0
           then Int.lor (Int.lor (karU prec1 emin emax x yv).inex
             (karV prec1 emin emax x yv).inex) ((karM prec1 emin emax x yv .D).inex)
           else (roundB .Z pre emin emax (-(maxval prec1 emax))
              (decide (-(maxval prec1 emax) < 0))).inex)
        = KStep.done (.fin (-(maxval pre emax))) 1
      rw [hsetZU .Z (Or.inl rfl)]
      rw [if_neg (by norm_num)]
    | U =>
      show KStep.done ((roundB .U pre emin emax (-(maxval prec1 emax))
            (decide (-(maxval prec1 emax) < 0))).val)
          (if (roundB .U pre emin emax (-(maxval prec1 emax))
              (decide (-(maxval prec1 emax) < 0))).inex = 0
           then Int.lor (Int.lor (karU prec1 emin emax x yv).inex
             (karV prec1 emin emax x yv).inex) ((karM prec1 emin emax x yv .D).inex)
           else (roundB .U pre emin emax (-(maxval prec1 emax))
              (decide (-(maxval prec1 emax) < 0))).inex)
        = KStep.done (.fin (-(maxval pre emax))) 1
      rw [hsetZU .U (Or.inr rfl)]
      rw [if_neg (by norm_num)]
  · intro zres hzeq hzinf
    subst hzeq
    simp only [mpfr_fmma]
    rw [if_pos hzinf]
    cases hsb : (mpfr_add pz rnd emin emax
        (mpfr_mul (pa + pb) .N emin emax (.fin a) (.fin b)).val
        (if sign < 0 then negv (mpfr_mul (pc + pd) .N emin emax (.fin c) (.fin d)).val
         else (mpfr_mul (pc + pd) .N emin emax (.fin c) (.fin d)).val)).val.signbit
    · have hr : mpfr_mul_2ui pz rnd emin emax (.fin (if false then (-1 : ℚ) else 1))
          (toULong emax).toNat = ⟨ovfVal rnd pz emax false, ovfInex rnd false, false⟩ := by
        show roundB rnd pz emin emax ((1 : ℚ) * pow2 (((toULong emax).toNat : ℕ) : ℤ))
          (decide ((1 : ℚ) < 0)) = _
        rw [htu, show (1 : ℚ) * pow2 emax = pow2 emax from by ring,
          show decide ((1 : ℚ) < 0) = false from by norm_num]
        exact roundB_pow2_ovf rnd pz emin emax false hpz
      rw [hr]
    · have hr : mpfr_mul_2ui pz rnd emin emax (.fin (if true then (-1 : ℚ) else 1))
          (toULong emax).toNat = ⟨ovfVal rnd pz emax true, ovfInex rnd true, false⟩ := by
        show roundB rnd pz emin emax ((-1 : ℚ) * pow2 (((toULong emax).toNat : ℕ) : ℤ))
          (decide ((-1 : ℚ) < 0)) = _
        rw [htu, show (-1 : ℚ) * pow2 emax = -(pow2 emax) from by ring,
          show decide ((-1 : ℚ) < 0) = true from by norm_num]
        exact roundB_neg_pow2_ovf rnd pz emin emax true hpz
      rw [hr]

/-- Witness for the amended C5: positive-branch overflow at
`op = (8, 4)`, negative-branch overflow at `op = (4, 8)`, and an
`mpfr_fmma` sum overflow at `3·3 + 3·3`, all with `emax = 4`. -/
theorem overflow_replacement_witness :
    karStep 11 4 .N (-10) 4 (.fin 8) (.fin 4) =
      .done (ovfVal .N 4 4 false) (ovfInex .N false) ∧
    karStep 11 4 .N (-10) 4 (.fin 4) (.fin 8) =
      .done (ovfVal .N 4 4 true) (ovfInex .N true) ∧
    mpfr_fmma 4 3 3 3 3 3 3 3 3 1 .N (-10) 4 =
      (ovfVal .N 4 4 false, ovfInex .N false) := by
  refine ⟨?_, ?_, ?_⟩
  · exact (overflow_replacement 11 4 4 3 3 3 3 .N .N (.fin 8) (.fin 4) 3 3 3 3 1 (-10) 4
      (by norm_num) (by norm_num) (by norm_num) (by norm_num) (by norm_num)
      (by norm_num)).1
      (by with_unfolding_all decide) (by with_unfolding_all decide)
      (by with_unfolding_all decide) (by with_unfolding_all decide)
  · exact (overflow_replacement 11 4 4 3 3 3 3 .N .N (.fin 4) (.fin 8) 3 3 3 3 1 (-10) 4
      (by norm_num) (by norm_num) (by norm_num) (by norm_num) (by norm_num)
      (by norm_num)).2.1 12 (-4)
      (by with_unfolding_all decide) (by with_unfolding_all decide)
      (by with_unfolding_all decide) (by with_unfolding_all decide)
      (by with_unfolding_all decide)
  · have h := (overflow_replacement 11 4 4 3 3 3 3 .N .N (.fin 4) (.fin 8) 3 3 3 3 1
      (-10) 4 (by norm_num) (by norm_num) (by norm_num) (by norm_num) (by norm_num)
      (by norm_num)).2.2
      (mpfr_add 4 .N (-10) 4 (mpfr_mul (3 + 3) .N (-10) 4 (.fin 3) (.fin 3)).val
        (if (1 : ℤ) < 0 then negv (mpfr_mul (3 + 3) .N (-10) 4 (.fin 3) (.fin 3)).val
         else (mpfr_mul (3 + 3) .N (-10) 4 (.fin 3) (.fin 3)).val))
      rfl (by with_unfolding_all decide)
    rw [h]
    with_unfolding_all decide

/-! ### Bounds on directed rounding (underflow-boundary analysis) -/

theorem floor_scale_le (p : ℕ) (q : ℚ) :
    mkQ ⌊q * pow2 ((p : ℤ) - qexp q)⌋ * pow2 (-((p : ℤ) - qexp q)) ≤ q := by
  have h1 : ((⌊q * pow2 ((p : ℤ) - qexp q)⌋ : ℤ) : ℚ) ≤ q * pow2 ((p : ℤ) - qexp q) :=
    Int.floor_le _
  have h2 : pow2 ((p : ℤ) - qexp q) * pow2 (-((p : ℤ) - qexp q)) = 1 := by
    rw [← pow2_add, add_neg_cancel]
    norm_num [pow2]
  calc mkQ ⌊q * pow2 ((p : ℤ) - qexp q)⌋ * pow2 (-((p : ℤ) - qexp q))
      ≤ (q * pow2 ((p : ℤ) - qexp q)) * pow2 (-((p : ℤ) - qexp q)) := by
        apply mul_le_mul_of_nonneg_right _ (le_of_lt (pow2_pos _))
        rw [mkQ_eq]
        exact h1
    _ = q := by
        rw [mul_assoc, h2, mul_one]

theorem roundQ_D_le (p : ℕ) (q : ℚ) : roundQ .D p q ≤ q := by
  by_cases hq : q = 0
  · subst hq
    rw [roundQ_zero]
  · simp only [roundQ, if_neg hq]
    exact floor_scale_le p q

theorem roundQ_A_le_of_neg (p : ℕ) {q : ℚ} (hq : q < 0) : roundQ .A p q ≤ q := by
  have hne : q ≠ 0 := ne_of_lt hq
  simp only [roundQ, if_neg hne]
  have hts : q * pow2 ((p : ℤ) - qexp q) < 0 :=
    mul_neg_of_neg_of_pos hq (pow2_pos _)
  have hA : rndInt .A (q * pow2 ((p : ℤ) - qexp q)) = ⌊q * pow2 ((p : ℤ) - qexp q)⌋ := by
    show (if 0 ≤ q * pow2 ((p : ℤ) - qexp q) then ⌈q * pow2 ((p : ℤ) - qexp q)⌉
      else ⌊q * pow2 ((p : ℤ) - qexp q)⌋) = ⌊q * pow2 ((p : ℤ) - qexp q)⌋
    rw [if_neg (not_le.mpr hts)]
  rw [hA]
  exact floor_scale_le p q

theorem roundQ_ge_neg_pow2 (rnd : Rnd) (p : ℕ) {q : ℚ} (hq : q ≠ 0) :
    -(pow2 (qexp q)) ≤ roundQ rnd p q := by
  simp only [roundQ, if_neg hq]
  have habs : qabs q < pow2 (qexp q) := (qexp_spec hq).2
  have hqlow : -(pow2 (qexp q)) < q := by
    have h1 : -q ≤ qabs q := by
      unfold qabs
      split <;> linarith
    linarith
  have hpow : pow2 (qexp q) * pow2 ((p : ℤ) - qexp q) = pow2 ((p : ℤ)) := by
    rw [← pow2_add]
    congr 1
    ring
  have hscaled : -(pow2 ((p : ℤ))) < q * pow2 ((p : ℤ) - qexp q) := by
    have h2 := mul_lt_mul_of_pos_right hqlow (pow2_pos ((p : ℤ) - qexp q))
    rw [neg_mul, hpow] at h2
    exact h2
  have hcast : ((-(2 ^ p : ℤ) : ℤ) : ℚ) = -(pow2 ((p : ℤ))) := by
    rw [pow2_natCast]
    push_cast
    ring
  have hfl : -(2 ^ p : ℤ) ≤ rndInt rnd (q * pow2 ((p : ℤ) - qexp q)) := by
    refine le_trans ?_ (rndInt_between rnd (q * pow2 ((p : ℤ) - qexp q))).1
    apply Int.le_floor.mpr
    rw [hcast]
    exact le_of_lt hscaled
  have hfinal : -(pow2 ((p : ℤ))) * pow2 (-((p : ℤ) - qexp q)) = -(pow2 (qexp q)) := by
    rw [neg_mul, ← pow2_add]
    congr 2
    ring
  calc -(pow2 (qexp q)) = -(pow2 ((p : ℤ))) * pow2 (-((p : ℤ) - qexp q)) := hfinal.symm
    _ ≤ mkQ (rndInt rnd (q * pow2 ((p : ℤ) - qexp q))) * pow2 (-((p : ℤ) - qexp q)) := by
        apply mul_le_mul_of_nonneg_right _ (le_of_lt (pow2_pos _))
        rw [mkQ_eq, ← hcast]
        exact_mod_cast hfl

theorem le_qexp_of_pow2_le {x : ℚ} {e : ℤ} (hx : x ≠ 0) (h : pow2 (e - 1) ≤ qabs x) :
    e ≤ qexp x := by
  by_contra hlt
  push_neg at hlt
  have h2 : qabs x < pow2 (qexp x) := (qexp_spec hx).2
  have h3 : pow2 (qexp x) ≤ pow2 (e - 1) := pow2_le_pow2 (by omega)
  linarith

theorem qexp_le_of_abs_le {x : ℚ} {e : ℤ} (hx : x ≠ 0) (h : qabs x ≤ pow2 e) :
    qexp x ≤ e + 1 := by
  by_contra hlt
  push_neg at hlt
  have h2 : pow2 (qexp x - 1) ≤ qabs x := (qexp_spec hx).1
  have h3 : pow2 e < pow2 (qexp x - 1) := pow2_lt_pow2 (by omega)
  linarith

/-- **C6** (counterexample): at working precision 8, target precision
2, rounding downward, `emin = -6`, operand `(-1/128, 15/128)`, the
tentative product `-7·2^-9` has exponent exactly `emin`; the loop
stops, but what is stored is `-2^-6` — the product re-rounded at 2
bits — not the boundary value `-7·2^-9` itself, which does not fit in
2 bits. -/
theorem karStep_boundary_not_identity :
    karStep 8 2 .D (-6) 10 (.fin (Rat.divInt (-1) 128))
        (.fin (Rat.divInt 15 128)) =
      .done (.fin (-(pow2 (-6)))) (-1) ∧
    (karM 8 (-6) 10 (.fin (Rat.divInt (-1) 128))
        (.fin (Rat.divInt 15 128)) .D).val =
      .fin (Rat.divInt (-7) (2 ^ 9)) ∧
    expOf (karM 8 (-6) 10 (.fin (Rat.divInt (-1) 128))
        (.fin (Rat.divInt 15 128)) .D).val = -6 ∧
    (MpfrVal.fin (-(pow2 (-6))) = .fin (Rat.divInt (-7) (2 ^ 9)) → False) := by
  refine ⟨?_, ?_, ?_, ?_⟩ <;> with_unfolding_all decide

/-- **C6** (amended): in the adaptive loop's negative branch, when the
tentative product is a finite negative `m` whose exponent is exactly
`emin`, the loop stops immediately: for the modes Z, N, U the real
result is exact zero with flag `+1`; for the away modes D, A what is
stored is `m` re-rounded at the target precision in the target mode —
which rounds away (is at most `m`) and can differ from the boundary
value itself — with flag `-1`. -/
theorem karStep_underflow_boundary (prec1 pre : ℕ) (rndre : Rnd) (emin emax : ℤ)
    (x yv : MpfrVal) (m : ℚ)
    (hpre : 1 ≤ pre) (hee : emin < emax)
    (hc1 : ¬(sgnv (karU prec1 emin emax x yv).val = 0 ∨
        sgnv (karV prec1 emin emax x yv).val = 0))
    (hnpos : ¬(0 < sgnv (karU prec1 emin emax x yv).val *
        sgnv (karV prec1 emin emax x yv).val))
    (hm : (karM prec1 emin emax x yv .D).val = .fin m)
    (hmneg : m < 0)
    (hexp : qexp m = emin) :
    (rndre = .Z ∨ rndre = .N ∨ rndre = .U →
      karStep prec1 pre rndre emin emax x yv = .done (.zero false) 1) ∧
    (rndre = .D ∨ rndre = .A →
      karStep prec1 pre rndre emin emax x yv =
        .done (.fin (roundQ rndre pre m)) (-1) ∧
      roundQ rndre pre m ≤ m) := by
  have hmne : m ≠ 0 := ne_of_lt hmneg
  have hinf : ¬((karM prec1 emin emax x yv .D).val.isInf = true) := by
    rw [hm]
    simp [MpfrVal.isInf]
  have hexpk : expOf (karM prec1 emin emax x yv .D).val = emin := by
    rw [hm]
    exact hexp
  constructor
  · intro hzu
    simp only [karStep]
    rw [if_neg hc1, if_neg hnpos, if_neg hinf, if_pos hexpk, if_pos hzu]
  · intro hda
    have hda2 : ¬(rndre = .Z ∨ rndre = .N ∨ rndre = .U) := by
      rcases hda with h | h <;> subst h <;> simp
    have hle : roundQ rndre pre m ≤ m := by
      rcases hda with h | h <;> subst h
      · exact roundQ_D_le pre m
      · exact roundQ_A_le_of_neg pre hmneg
    have hrneg : roundQ rndre pre m < 0 := lt_of_le_of_lt hle hmneg
    have hrne : roundQ rndre pre m ≠ 0 := ne_of_lt hrneg
    have habsr : qabs (roundQ rndre pre m) = -(roundQ rndre pre m) := by
      unfold qabs
      rw [if_pos hrneg]
    have habsm : qabs m = -m := by
      unfold qabs
      rw [if_pos hmneg]
    have hge : -(pow2 emin) ≤ roundQ rndre pre m := by
      have := roundQ_ge_neg_pow2 rndre pre hmne
      rw [hexp] at this
      exact this
    have hlo : emin ≤ qexp (roundQ rndre pre m) := by
      apply le_qexp_of_pow2_le hrne
      rw [habsr]
      have h1 : pow2 (emin - 1) ≤ qabs m := by
        have := (qexp_spec hmne).1
        rw [hexp] at this
        exact this
      rw [habsm] at h1
      linarith
    have hhi : qexp (roundQ rndre pre m) ≤ emax := by
      have h2 : qexp (roundQ rndre pre m) ≤ emin + 1 := by
        apply qexp_le_of_abs_le hrne
        rw [habsr]
        linarith
      omega
    have hset : roundB rndre pre emin emax m (decide (m < 0)) =
        ⟨.fin (roundQ rndre pre m), qsign (roundQ rndre pre m - m), false⟩ := by
      unfold roundB
      rw [if_neg hmne, if_neg (not_lt.mpr hhi), if_neg (not_lt.mpr hlo)]
    refine ⟨?_, hle⟩
    simp only [karStep]
    rw [if_neg hc1, if_neg hnpos, if_neg hinf, if_pos hexpk, if_neg hda2, hm,
      show mpfr_set pre rndre emin emax (.fin m) =
        roundB rndre pre emin emax m (decide (m < 0)) from rfl,
      hset]

/-- Witness for the amended C6: the counterexample input in mode D,
phrased through the re-rounded product. -/
theorem karStep_underflow_boundary_witness :
    karStep 8 2 .D (-6) 10 (.fin (Rat.divInt (-1) 128))
        (.fin (Rat.divInt 15 128)) =
      .done (.fin (roundQ .D 2 (Rat.divInt (-7) (2 ^ 9)))) (-1) ∧
    roundQ .D 2 (Rat.divInt (-7) (2 ^ 9)) ≤ Rat.divInt (-7) (2 ^ 9) :=
  (karStep_underflow_boundary 8 2 .D (-6) 10 (.fin (Rat.divInt (-1) 128))
    (.fin (Rat.divInt 15 128)) (Rat.divInt (-7) (2 ^ 9))
    (by norm_num) (by norm_num)
    (by with_unfolding_all decide) (by with_unfolding_all decide)
    (by with_unfolding_all decide) (by with_unfolding_all decide)
    (by with_unfolding_all decide)).2 (Or.inl rfl)

theorem roundQ_Z_le_of_nonneg (p : ℕ) {q : ℚ} (hq : 0 ≤ q) : roundQ .Z p q ≤ q := by
  by_cases h0 : q = 0
  · subst h0
    rw [roundQ_zero]
  · simp only [roundQ, if_neg h0]
    have hts : 0 ≤ q * pow2 ((p : ℤ) - qexp q) :=
      mul_nonneg hq (le_of_lt (pow2_pos _))
    have hZ : rndInt .Z (q * pow2 ((p : ℤ) - qexp q)) = ⌊q * pow2 ((p : ℤ) - qexp q)⌋ := by
      show (if 0 ≤ q * pow2 ((p : ℤ) - qexp q) then ⌊q * pow2 ((p : ℤ) - qexp q)⌋
        else ⌈q * pow2 ((p : ℤ) - qexp q)⌉) = ⌊q * pow2 ((p : ℤ) - qexp q)⌋
      rw [if_pos hts]
    rw [hZ]
    exact floor_scale_le p q

/-- One pass of the adaptive loop on `op = (2 + 2^-9, -2 + 2^-9)` with
target precision 4 and `emin = -6` asks for another iteration at every
working precision `≥ 5`: the away-rounded `u = x + y = 2^-8` always
underflow-clamps to `2^-7` with a sticky nonzero flag, the product
`u·v = 2^-5` is exact, and `mpfr_can_round` can never certify it. -/
theorem karStep_c8 (prec1 : ℕ) (hp : 5 ≤ prec1) :
    karStep prec1 4 .N (-6) 10 (.fin (Rat.divInt 1025 512))
      (.fin (Rat.divInt (-1023) 512)) = .next := by
  have hp1 : 1 ≤ prec1 := by omega
  have hXY : Rat.divInt 1025 512 + Rat.divInt (-1023) 512 = pow2 (-8) := by
    with_unfolding_all decide
  have hXY2 : Rat.divInt 1025 512 + -(Rat.divInt (-1023) 512) = pow2 2 := by
    with_unfolding_all decide
  have hufl : uflVal .A (-6) (pow2 (-8)) = pow2 (-7) := by
    show (if pow2 (-8) < 0 then -(minmag (-6)) else minmag (-6)) = pow2 (-7)
    rw [if_neg (not_lt.mpr (le_of_lt (pow2_pos _)))]
    show pow2 (-6 - 1) = pow2 (-7)
    norm_num
  have hU : karU prec1 (-6) 10 (.fin (Rat.divInt 1025 512))
      (.fin (Rat.divInt (-1023) 512)) = ⟨.fin (pow2 (-7)), 1, true⟩ := by
    show roundB .A prec1 (-6) 10
      (Rat.divInt 1025 512 + Rat.divInt (-1023) 512) (decide (Rnd.A = Rnd.D)) = _
    rw [hXY, show decide (Rnd.A = Rnd.D) = false from rfl]
    unfold roundB
    rw [if_neg (pow2_ne_zero _), roundQ_eq_self (pow2_repAt prec1 (-8) hp1), qexp_pow2,
      if_neg (by norm_num), if_pos (by norm_num), hufl,
      if_neg (pow2_ne_zero (-7)),
      qsign_pos (sub_pos.mpr (pow2_lt_pow2 (by norm_num)))]
  have hV : karV prec1 (-6) 10 (.fin (Rat.divInt 1025 512))
      (.fin (Rat.divInt (-1023) 512)) = ⟨.fin (pow2 2), 0, false⟩ := by
    show roundB .A prec1 (-6) 10
      (Rat.divInt 1025 512 + -(Rat.divInt (-1023) 512)) (decide (Rnd.A = Rnd.D)) = _
    rw [hXY2, show decide (Rnd.A = Rnd.D) = false from rfl]
    exact roundB_exact .A prec1 (-6) 10 _ (pow2_repAt prec1 2 hp1) (pow2_ne_zero 2)
      (by rw [qexp_pow2]; norm_num) (by rw [qexp_pow2]; norm_num)
  have hM : karM prec1 (-6) 10 (.fin (Rat.divInt 1025 512))
      (.fin (Rat.divInt (-1023) 512)) .U = ⟨.fin (pow2 (-5)), 0, false⟩ := by
    unfold karM
    rw [hU, hV]
    show roundB .U prec1 (-6) 10 (pow2 (-7) * pow2 2)
      (xor (decide (pow2 (-7) < 0)) (decide (pow2 (2 : ℤ) < 0))) = _
    rw [show pow2 (-7) * pow2 2 = pow2 (-5) from by rw [← pow2_add]; norm_num]
    exact roundB_exact .U prec1 (-6) 10 _ (pow2_repAt prec1 (-5) hp1)
      (pow2_ne_zero _) (by rw [qexp_pow2]; norm_num) (by rw [qexp_pow2]; norm_num)
  have hlo_pos : 0 < pow2 (-5) - pow2 (-1 - (prec1 : ℤ)) := by
    have := pow2_lt_pow2 (show (-1 - (prec1 : ℤ)) < -5 by omega)
    linarith
  have hne_round : roundQ .Z 5 (pow2 (-5) - pow2 (-1 - (prec1 : ℤ))) ≠
      roundQ .Z 5 (pow2 (-5)) := by
    have h1 : roundQ .Z 5 (pow2 (-5) - pow2 (-1 - (prec1 : ℤ))) ≤
        pow2 (-5) - pow2 (-1 - (prec1 : ℤ)) :=
      roundQ_Z_le_of_nonneg 5 (le_of_lt hlo_pos)
    have h2 : roundQ .Z 5 (pow2 (-5)) = pow2 (-5) :=
      roundQ_eq_self (pow2_repAt 5 (-5) (by norm_num))
    rw [h2]
    intro hcontra
    have h3 := pow2_pos (-1 - (prec1 : ℤ))
    rw [hcontra] at h1
    linarith
  have hcr : mpfr_can_round (.fin (pow2 (-5))) ((prec1 : ℤ) - 3) .U .Z 5 = false := by
    have hexp5 : qexp (pow2 (-5 : ℤ)) - ((prec1 : ℤ) - 3) = -1 - (prec1 : ℤ) := by
      rw [qexp_pow2]
      ring
    show decide (roundQ .Z 5 (pow2 (-5) - pow2 (qexp (pow2 (-5 : ℤ)) - ((prec1 : ℤ) - 3))) =
      roundQ .Z 5 (pow2 (-5))) = false
    rw [hexp5]
    exact decide_eq_false hne_round
  have hc1 : ¬(sgnv (karU prec1 (-6) 10 (.fin (Rat.divInt 1025 512))
      (.fin (Rat.divInt (-1023) 512))).val = 0 ∨
      sgnv (karV prec1 (-6) 10 (.fin (Rat.divInt 1025 512))
      (.fin (Rat.divInt (-1023) 512))).val = 0) := by
    rw [hU, hV]
    push_neg
    refine ⟨?_, ?_⟩
    · show qsign (pow2 (-7)) ≠ 0
      rw [qsign_pos (pow2_pos _)]
      norm_num
    · show qsign (pow2 2) ≠ 0
      rw [qsign_pos (pow2_pos _)]
      norm_num
  have hpos : 0 < sgnv (karU prec1 (-6) 10 (.fin (Rat.divInt 1025 512))
      (.fin (Rat.divInt (-1023) 512))).val *
      sgnv (karV prec1 (-6) 10 (.fin (Rat.divInt 1025 512))
      (.fin (Rat.divInt (-1023) 512))).val := by
    rw [hU, hV]
    show (0 : ℤ) < qsign (pow2 (-7)) * qsign (pow2 2)
    rw [qsign_pos (pow2_pos _), qsign_pos (pow2_pos _)]
    norm_num
  have hexpne : ¬(expOf (karM prec1 (-6) 10 (.fin (Rat.divInt 1025 512))
      (.fin (Rat.divInt (-1023) 512)) .U).val = -6) := by
    rw [hM]
    show ¬(qexp (pow2 (-5)) = -6)
    rw [qexp_pow2]
    norm_num
  have hninf : ¬((karM prec1 (-6) 10 (.fin (Rat.divInt 1025 512))
      (.fin (Rat.divInt (-1023) 512)) .U).val.isInf = true) := by
    rw [hM]
    simp [MpfrVal.isInf]
  simp only [karStep]
  rw [if_neg hc1, if_pos hpos, if_neg hexpne, if_neg hninf, if_neg]
  push_neg
  refine ⟨?_, ?_⟩
  · rw [hU, hV, hM]
    show Int.lor (Int.lor 1 0) 0 ≠ 0
    decide
  · rw [hM]
    show mpfr_can_round (.fin (pow2 (-5))) ((prec1 : ℤ) - 3) .U .Z 5 ≠ true
    rw [hcr]
    norm_num

/-- **C8**: the precision-escalation loop does NOT terminate for every
finite nonzero operand, refuting the claim: on
`op = (2 + 2^-9, -2 + 2^-9)` (operand precisions 11) with target
precisions 4, rounding to nearest and exponent range `[-6, 10]`, the
do-while loop never exits — for every fuel and every starting
precision it runs out of fuel (`none`), and so does `mpc_sqr`. -/
theorem karLoop_nonterminating :
    (∀ fuel prec : ℕ, karLoop 4 .N (-6) 10 (.fin (Rat.divInt 1025 512))
      (.fin (Rat.divInt (-1023) 512)) fuel prec = none) ∧
    (∀ fuel : ℕ, mpc_sqr false 4 4 11 11 (.fin (Rat.divInt 1025 512))
      (.fin (Rat.divInt (-1023) 512)) .N .N (-6) 10 fuel = none) := by
  have hloop : ∀ fuel prec : ℕ, karLoop 4 .N (-6) 10 (.fin (Rat.divInt 1025 512))
      (.fin (Rat.divInt (-1023) 512)) fuel prec = none := by
    intro fuel
    induction fuel with
    | zero => intro prec; rfl
    | succ f ih =>
        intro prec
        show (match karStep (prec + mpc_ceil_log2 prec + 5) 4 .N (-6) 10
            (.fin (Rat.divInt 1025 512)) (.fin (Rat.divInt (-1023) 512)) with
          | .done v ix => some (.ok v ix)
          | .afail => some .afail
          | .next => karLoop 4 .N (-6) 10 (.fin (Rat.divInt 1025 512))
              (.fin (Rat.divInt (-1023) 512)) f (prec + mpc_ceil_log2 prec + 5)) = none
        rw [karStep_c8 (prec + mpc_ceil_log2 prec + 5) (by omega)]
        exact ih (prec + mpc_ceil_log2 prec + 5)
  refine ⟨hloop, ?_⟩
  intro fuel
  have hnum : ¬¬((MpfrVal.fin (Rat.divInt 1025 512)).isNumber = true ∧
      (MpfrVal.fin (Rat.divInt (-1023) 512)).isNumber = true) :=
    not_not_intro ⟨rfl, rfl⟩
  have hzy : ¬((MpfrVal.fin (Rat.divInt (-1023) 512)).isZero = true) := by
    with_unfolding_all decide
  have hzx : ¬((MpfrVal.fin (Rat.divInt 1025 512)).isZero = true) := by
    with_unfolding_all decide
  have hskew : ¬((max 11 11 : ℕ) / 2 < (expOf (MpfrVal.fin (Rat.divInt 1025 512)) -
      expOf (MpfrVal.fin (Rat.divInt (-1023) 512))).natAbs) := by
    with_unfolding_all decide
  simp only [mpc_sqr, Bool.false_eq_true, if_false]
  rw [if_neg hnum, if_neg hzy, if_neg hzx, if_neg hskew, hloop fuel (max 4 4)]
